import Mathlib

/-!
# Verification of `joeycumines/go-utilpkg` benchmark tooling and changelog engine spec

This file shallowly embeds, in Lean 4:

* the Python benchmark-analysis scripts found under
  `src/eventloop/docs/tournament/2026-02-10/` (`parse_benchmarks.py`,
  `analyze_2platform.py`, `analyze_3platform.py`), and
* the "Keep a Changelog" structured-text engine described by the
  repository specification (its implementation is not among the provided
  source files, so those definitions are modelled from the spec's words).

Python floats are modelled as exact rationals (`ℚ`); `math.sqrt` is kept
abstract as a function parameter (the claims settled here depend only on
the guards around it and on `sqrt 0 = 0`, not on its values).
-/

namespace Bench

/-- Python whitespace test used by `str.strip()` (ASCII subset, which is
what Go benchmark logs contain). -/
def isSpaceC (c : Char) : Bool :=
  c == ' ' || c == '\t' || c == '\n' || c == '\r' || c == '\x0b' || c == '\x0c'

/-- `line.strip()` from `parse_log`: drop leading and trailing whitespace. -/
def stripLine (s : String) : String :=
  ⟨(((s.data.dropWhile isSpaceC).reverse.dropWhile isSpaceC).reverse)⟩

/-- Match a literal character sequence at the head of the input
(a literal fragment of `BENCH_RE` such as `ns/op`). -/
def lit : List Char → List Char → Option (List Char)
  | [], cs => some cs
  | _, [] => none
  | p :: ps, c :: cs => if p == c then lit ps cs else none

/-- Match one-or-more characters satisfying `p` (a greedy `+` atom of
`BENCH_RE`; all adjacent atoms of that regex have disjoint character
classes, so greedy maximal munch is exactly the regex semantics). -/
def plusRun (p : Char → Bool) (cs : List Char) : Option (List Char × List Char) :=
  let t := cs.takeWhile p
  if t.isEmpty then none else some (t, cs.dropWhile p)

/-- The capture groups of `BENCH_RE` that `parse_log` consumes: benchmark
name (group 1), the `ns/op` digit-and-dot text (group 3), `B/op` digits
(group 4) and `allocs/op` digits (group 5).  Group 2 (iterations) is
matched but unused by the script. -/
structure Groups where
  name : String
  nsText : List Char
  bText : List Char
  aText : List Char
  deriving Repr, DecidableEq

/-- A `\s+` atom followed by a literal regex fragment. -/
def spacedLit (l : List Char) (cs : List Char) : Option (List Char) :=
  match plusRun isSpaceC cs with
  | none => none
  | some (_, cs) => lit l cs

/-- A `\s+` atom followed by a one-or-more character-class atom. -/
def spacedRun (p : Char → Bool) (cs : List Char) : Option (List Char × List Char) :=
  match plusRun isSpaceC cs with
  | none => none
  | some (_, cs) => plusRun p cs

/-- `BENCH_RE.match(line)` on an already-stripped line, returning the
captured groups.  Mirrors
`^(Benchmark\S+)\s+(\d+)\s+([\d.]+)\s+ns/op\s+(\d+)\s+B/op\s+(\d+)\s+allocs/op`;
trailing text after the final literal is permitted, as with `re.match`. -/
def benchMatch (line : String) : Option Groups :=
  (lit "Benchmark".data line.data).bind fun cs =>
  (plusRun (fun c => !isSpaceC c) cs).bind fun nm =>
  (spacedRun Char.isDigit nm.2).bind fun iters =>
  (spacedRun (fun c => c.isDigit || c == '.') iters.2).bind fun ns =>
  (spacedLit "ns/op".data ns.2).bind fun cs2 =>
  (spacedRun Char.isDigit cs2).bind fun b =>
  (spacedLit "B/op".data b.2).bind fun cs3 =>
  (spacedRun Char.isDigit cs3).bind fun a =>
  (spacedLit "allocs/op".data a.2).map fun _ =>
  ⟨⟨"Benchmark".data ++ nm.1⟩, ns.1, b.1, a.1⟩

/-- Numeric value of a digit string (how Python's `int` reads `\d+`). -/
def natOfDigits (cs : List Char) : ℕ :=
  cs.foldl (fun n c => 10 * n + (c.toNat - '0'.toNat)) 0

/-- Python `float` applied to a `[\d.]+` capture, as an exact rational.
Returns `none` exactly when Python would raise `ValueError`: more than
one dot, or no digit at all (the bare string `"."`). -/
def pyFloat (cs : List Char) : Option ℚ :=
  match cs.splitOn '.' with
  | [a] => some (natOfDigits a)
  | [a, b] =>
    if a.isEmpty && b.isEmpty then none
    else some ((natOfDigits a : ℚ) + (natOfDigits b : ℚ) / (10 : ℚ) ^ b.length)
  | _ => none

/-- One benchmark run record as stored by `parse_log`
(`{'ns_op': …, 'b_op': …, 'allocs_op': …}`).  All numbers are carried as
exact rationals; whether Python holds an `int` or a whole-valued `float`
is immaterial to the arithmetic and is recovered for JSON output by
`pynum`. -/
structure Run where
  ns_op : ℚ
  b_op : ℚ
  allocs_op : ℚ
  deriving Repr, DecidableEq

/-- Full parse of one raw log line: strip, regex-match, convert groups.
`none` means the line does not match `BENCH_RE` and is skipped;
`some (name, none)` means the regex matched but `float(m.group(3))`
raises `ValueError`. -/
def parseLine (raw : String) : Option (String × Option Run) :=
  match benchMatch (stripLine raw) with
  | none => none
  | some g =>
    match pyFloat g.nsText with
    | none => some (g.name, none)
    | some q => some (g.name, some ⟨q, (natOfDigits g.bText : ℚ), (natOfDigits g.aText : ℚ)⟩)

/-- Insertion-ordered grouping table built by
`benchmarks.setdefault(name, []).append(run)`: the first occurrence of a
name appends a fresh key at the end, later occurrences append the run to
the existing entry in place. -/
def insertRun (acc : List (String × List Run)) (n : String) (r : Run) :
    List (String × List Run) :=
  match acc with
  | [] => [(n, [r])]
  | (k, rs) :: t => if k = n then (k, rs ++ [r]) :: t else (k, rs) :: insertRun t n r

/-- The loop body of `parse_log` over the remaining lines.  A matched
line whose `ns/op` text is not a valid float aborts the whole parse
(Python's uncaught `ValueError`), embedded as `Except.error`. -/
def parseGo : List String → List (String × List Run) → Except Unit (List (String × List Run))
  | [], acc => .ok acc
  | l :: ls, acc =>
    match parseLine l with
    | none => parseGo ls acc
    | some (_, none) => .error ()
    | some (n, some r) => parseGo ls (insertRun acc n r)

/-- `parse_log`, over the file's lines. -/
def parse_log (lines : List String) : Except Unit (List (String × List Run)) :=
  parseGo lines []

/-- A Python number as it appears in the emitted JSON: `int` or `float`.
`_num` (and the whole-number check in `parse_log`) guarantee every
whole-valued statistic is emitted as an `int`. -/
inductive PyNum where
  | pint (i : ℤ)
  | pfloat (q : ℚ)
  deriving Repr, DecidableEq

/-- `_num(v)`: whole values become `int`, everything else stays `float`. -/
def pynum (q : ℚ) : PyNum :=
  if q.den = 1 then .pint q.num else .pfloat q

/-- The rational a `PyNum` denotes. -/
def PyNum.val : PyNum → ℚ
  | .pint i => i
  | .pfloat q => q

/-- Python `min` over a non-empty list (left fold from the first element). -/
def pymin : List ℚ → ℚ
  | [] => 0
  | x :: xs => xs.foldl min x

/-- Python `max` over a non-empty list. -/
def pymax : List ℚ → ℚ
  | [] => 0
  | x :: xs => xs.foldl max x

/-- The statistics dict produced by `compute_statistics`. -/
structure Stats where
  mean : PyNum
  min : PyNum
  max : PyNum
  stddev : PyNum
  deriving Repr, DecidableEq

/-- `compute_statistics(values)` from `parse_benchmarks.py`, with
`math.sqrt` abstracted as `sqrt`. -/
def compute_statistics (sqrt : ℚ → ℚ) (values : List ℚ) : Stats :=
  let n := values.length
  if n = 0 then ⟨.pint 0, .pint 0, .pint 0, .pint 0⟩
  else
    let mean : ℚ := values.sum / (n : ℚ)
    let minV := pymin values
    let maxV := pymax values
    let stddev : ℚ :=
      if n < 2 then 0
      else sqrt ((values.map (fun x => (x - mean) ^ 2)).sum / ((n : ℚ) - 1))
    ⟨pynum mean, pynum minV, pynum maxV, pynum stddev⟩

/-- One element of the output `benchmarks` array. -/
structure BenchOut where
  name : String
  runs : List Run
  allocs_op : Stats
  b_op : Stats
  ns_op : Stats
  deriving Repr, DecidableEq

/-- The whole JSON document emitted by `build_output`. -/
structure Output where
  platform : String
  goos : String
  goarch : String
  timestamp : String
  benchmarks : List BenchOut
  deriving Repr, DecidableEq

/-- Dictionary lookup `benchmarks[name]` (names produced by
`sorted(benchmarks.keys())` are always present). -/
def lookupRuns : List (String × List Run) → String → List Run
  | [], _ => []
  | (k, rs) :: t, n => if k = n then rs else lookupRuns t n

/-- `build_output(benchmarks, platform, goos, goarch)`. -/
def build_output (sqrt : ℚ → ℚ) (bs : List (String × List Run))
    (platform goos goarch : String) : Output :=
  let sortedNames := (bs.map Prod.fst).mergeSort (fun a b => a ≤ b)
  { platform := platform
    goos := goos
    goarch := goarch
    timestamp := "2026-02-10"
    benchmarks := sortedNames.map fun n =>
      let runs := lookupRuns bs n
      { name := n
        runs := runs
        allocs_op := compute_statistics sqrt (runs.map Run.allocs_op)
        b_op := compute_statistics sqrt (runs.map Run.b_op)
        ns_op := compute_statistics sqrt (runs.map Run.ns_op) } }

/-- `statistics.mean` (exact, over rationals). -/
def pymean (g : List ℚ) : ℚ := g.sum / (g.length : ℚ)

/-- `statistics.variance` — the sample variance with divisor `n - 1`. -/
def pyvariance (g : List ℚ) : ℚ :=
  ((g.map (fun x => (x - pymean g) ^ 2)).sum) / ((g.length : ℚ) - 1)

/-- `v1/n1 + v2/n2`, whose square root is the pooled standard error `se`
in both t-test helpers. -/
def pooledSE2 (g1 g2 : List ℚ) : ℚ :=
  pyvariance g1 / (g1.length : ℚ) + pyvariance g2 / (g2.length : ℚ)

/-- The Welch–Satterthwaite denominator
`(v1/n1)**2/(n1-1) + (v2/n2)**2/(n2-1)` appearing in both t-test
helpers. -/
def wsDen (g1 g2 : List ℚ) : ℚ :=
  (pyvariance g1 / (g1.length : ℚ)) ^ 2 / ((g1.length : ℚ) - 1) +
  (pyvariance g2 / (g2.length : ℚ)) ^ 2 / ((g2.length : ℚ) - 1)

/-- The 95% critical value choice shared by both helpers:
`2.776 if df < 30 else 1.96`. -/
def tCrit (df : ℚ) : ℚ := if df < 30 then 2776 / 1000 else 196 / 100

/-- `welch_t(g1, g2)` from `analyze_2platform.py`, with `math.sqrt`
abstract.  Its `df` division is guarded by `if den != 0`. -/
def welch_t (sqrt : ℚ → ℚ) (g1 g2 : List ℚ) : ℚ × ℚ × Bool :=
  if g1.length < 2 ∨ g2.length < 2 then (0, 0, false)
  else if sqrt (pooledSE2 g1 g2) = 0 then (0, 0, false)
  else
    let t := |pymean g1 - pymean g2| / sqrt (pooledSE2 g1 g2)
    let df := if wsDen g1 g2 ≠ 0 then pooledSE2 g1 g2 ^ 2 / wsDen g1 g2 else 0
    (t, df, decide (tCrit df < t))

/-- `var1 = statistics.variance(group1) if len(group1) > 1 else 0` from
`perform_t_test` (the conditional is redundant after the length guard,
but is transcribed as written). -/
def tvar (g : List ℚ) : ℚ := if 1 < g.length then pyvariance g else 0

/-- `tvar`-based pooled squared standard error, as `perform_t_test`
computes it. -/
def pooledSE2t (g1 g2 : List ℚ) : ℚ :=
  tvar g1 / (g1.length : ℚ) + tvar g2 / (g2.length : ℚ)

/-- `perform_t_test(group1, group2)` from `analyze_3platform.py`.  Note
that, unlike `welch_t`, its Welch–Satterthwaite division carries no
`den != 0` guard in the source. -/
def perform_t_test (sqrt : ℚ → ℚ) (g1 g2 : List ℚ) : ℚ × Bool :=
  if g1.length < 2 ∨ g2.length < 2 then (0, false)
  else if sqrt (pooledSE2t g1 g2) = 0 then (0, false)
  else
    let t := |pymean g1 - pymean g2| / sqrt (pooledSE2t g1 g2)
    let df := pooledSE2t g1 g2 ^ 2 /
      ((tvar g1 / (g1.length : ℚ)) ^ 2 / ((g1.length : ℚ) - 1) +
       (tvar g2 / (g2.length : ℚ)) ^ 2 / ((g2.length : ℚ) - 1))
    (t, decide (tCrit df < t))

lemma pyvariance_nonneg (g : List ℚ) (h : 1 ≤ g.length) : 0 ≤ pyvariance g := by
  unfold pyvariance
  apply div_nonneg
  · exact List.sum_nonneg (by
      intro x hx
      obtain ⟨y, _, rfl⟩ := List.mem_map.mp hx
      positivity)
  · have : (1 : ℚ) ≤ (g.length : ℚ) := by exact_mod_cast h
    linarith

lemma foldl_min_le_init (xs : List ℚ) (a : ℚ) : xs.foldl min a ≤ a := by
  induction xs generalizing a with
  | nil => simp
  | cons x xs ih => exact le_trans (ih (min a x)) (min_le_left a x)

lemma foldl_min_le_mem (xs : List ℚ) (a : ℚ) {y : ℚ} (hy : y ∈ xs) : xs.foldl min a ≤ y := by
  induction xs generalizing a with
  | nil => cases hy
  | cons x xs ih =>
    rcases List.mem_cons.mp hy with rfl | hmem
    · exact le_trans (foldl_min_le_init xs (min a y)) (min_le_right a y)
    · exact ih (min a x) hmem

lemma foldl_min_mem (xs : List ℚ) (a : ℚ) : xs.foldl min a = a ∨ xs.foldl min a ∈ xs := by
  induction xs generalizing a with
  | nil => exact Or.inl rfl
  | cons x xs ih =>
    rcases ih (min a x) with heq | hmem
    · rcases min_choice a x with hax | hax
      · exact Or.inl (by rw [List.foldl_cons, heq, hax])
      · exact Or.inr (by rw [List.foldl_cons, heq, hax]; exact List.mem_cons_self x xs)
    · exact Or.inr (List.mem_cons_of_mem x hmem)

lemma init_le_foldl_max (xs : List ℚ) (a : ℚ) : a ≤ xs.foldl max a := by
  induction xs generalizing a with
  | nil => simp
  | cons x xs ih => exact le_trans (le_max_left a x) (ih (max a x))

lemma mem_le_foldl_max (xs : List ℚ) (a : ℚ) {y : ℚ} (hy : y ∈ xs) : y ≤ xs.foldl max a := by
  induction xs generalizing a with
  | nil => cases hy
  | cons x xs ih =>
    rcases List.mem_cons.mp hy with rfl | hmem
    · exact le_trans (le_max_right a y) (init_le_foldl_max xs (max a y))
    · exact ih (max a x) hmem

lemma foldl_max_mem (xs : List ℚ) (a : ℚ) : xs.foldl max a = a ∨ xs.foldl max a ∈ xs := by
  induction xs generalizing a with
  | nil => exact Or.inl rfl
  | cons x xs ih =>
    rcases ih (max a x) with heq | hmem
    · rcases max_choice a x with hax | hax
      · exact Or.inl (by rw [List.foldl_cons, heq, hax])
      · exact Or.inr (by rw [List.foldl_cons, heq, hax]; exact List.mem_cons_self x xs)
    · exact Or.inr (List.mem_cons_of_mem x hmem)

lemma pymin_mem (x : ℚ) (xs : List ℚ) : pymin (x :: xs) ∈ x :: xs := by
  show xs.foldl min x ∈ x :: xs
  rcases foldl_min_mem xs x with heq | hmem
  · rw [heq]; exact List.mem_cons_self x xs
  · exact List.mem_cons_of_mem x hmem

lemma pymin_le (x : ℚ) (xs : List ℚ) {y : ℚ} (hy : y ∈ x :: xs) : pymin (x :: xs) ≤ y := by
  show xs.foldl min x ≤ y
  rcases List.mem_cons.mp hy with rfl | hmem
  · exact foldl_min_le_init xs y
  · exact foldl_min_le_mem xs x hmem

lemma pymax_mem (x : ℚ) (xs : List ℚ) : pymax (x :: xs) ∈ x :: xs := by
  show xs.foldl max x ∈ x :: xs
  rcases foldl_max_mem xs x with heq | hmem
  · rw [heq]; exact List.mem_cons_self x xs
  · exact List.mem_cons_of_mem x hmem

lemma le_pymax (x : ℚ) (xs : List ℚ) {y : ℚ} (hy : y ∈ x :: xs) : y ≤ pymax (x :: xs) := by
  show y ≤ xs.foldl max x
  rcases List.mem_cons.mp hy with rfl | hmem
  · exact init_le_foldl_max xs y
  · exact mem_le_foldl_max xs x hmem

lemma tvar_eq (g : List ℚ) (h : 2 ≤ g.length) : tvar g = pyvariance g := by
  unfold tvar
  rw [if_pos (by omega)]

lemma pooledSE2t_eq (g1 g2 : List ℚ) (h1 : 2 ≤ g1.length) (h2 : 2 ≤ g2.length) :
    pooledSE2t g1 g2 = pooledSE2 g1 g2 := by
  unfold pooledSE2t pooledSE2
  rw [tvar_eq g1 h1, tvar_eq g2 h2]

/-- The runs of benchmark `n` contributed by `lines`, in log order:
exactly the payloads of the lines matching `BENCH_RE` whose captured
name is `n`, in the order they appear in the log. -/
def runsInLog (n : String) (lines : List String) : List Run :=
  lines.filterMap fun l =>
    match parseLine l with
    | some (m, some r) => if m = n then some r else none
    | _ => none

lemma lookupRuns_insertRun (acc : List (String × List Run)) (ins qry : String) (r : Run) :
    lookupRuns (insertRun acc ins r) qry =
      if ins = qry then lookupRuns acc qry ++ [r] else lookupRuns acc qry := by
  induction acc with
  | nil =>
    by_cases h : ins = qry <;> simp [insertRun, lookupRuns, h]
  | cons kv t ih =>
    obtain ⟨k, rs⟩ := kv
    by_cases hk : k = ins
    · subst hk
      by_cases hq : k = qry
      · subst hq; simp [insertRun, lookupRuns]
      · simp [insertRun, lookupRuns, hq]
    · by_cases hq : k = qry
      · subst hq
        have : ¬ ins = k := fun he => hk he.symm
        simp [insertRun, lookupRuns, hk, this]
      · simp [insertRun, lookupRuns, hk, hq, ih]

lemma runsInLog_cons (n : String) (l : String) (ls : List String) :
    runsInLog n (l :: ls) =
      (match parseLine l with
        | some (m, some r) => if m = n then some r else none
        | _ => none).toList ++ runsInLog n ls := by
  unfold runsInLog
  rw [List.filterMap_cons]
  rcases hl : parseLine l with _ | ⟨m, _ | r⟩
  · simp
  · simp
  · by_cases hmn : m = n <;> simp [hmn]

lemma parseGo_lookup : ∀ (lines : List String) (acc bs : List (String × List Run)),
    parseGo lines acc = .ok bs →
    ∀ n, lookupRuns bs n = lookupRuns acc n ++ runsInLog n lines := by
  intro lines
  induction lines with
  | nil =>
    intro acc bs h n
    simp only [parseGo, Except.ok.injEq] at h
    subst h
    simp [runsInLog]
  | cons l ls ih =>
    intro acc bs h n
    rcases hl : parseLine l with _ | ⟨m, _ | r⟩
    · simp only [parseGo, hl] at h
      rw [ih acc bs h n, runsInLog_cons, hl]
      simp
    · simp only [parseGo, hl] at h
      exact Except.noConfusion h
    · simp only [parseGo, hl] at h
      rw [ih (insertRun acc m r) bs h n, lookupRuns_insertRun, runsInLog_cons, hl]
      by_cases hmn : m = n
      · simp [hmn]
      · simp [hmn]

lemma parseGo_skip (bad : String) (hbad : parseLine bad = none) :
    ∀ (pre post : List String) (acc),
      parseGo (pre ++ bad :: post) acc = parseGo (pre ++ post) acc := by
  intro pre
  induction pre with
  | nil =>
    intro post acc
    show parseGo (bad :: post) acc = parseGo post acc
    simp only [parseGo, hbad]
  | cons l ls ih =>
    intro post acc
    show parseGo (l :: (ls ++ bad :: post)) acc = parseGo (l :: (ls ++ post)) acc
    rcases hl : parseLine l with _ | ⟨m, _ | r⟩
    · simp only [parseGo, hl]
      exact ih post acc
    · simp only [parseGo, hl]
    · simp only [parseGo, hl]
      exact ih post (insertRun acc m r)

/-- C10: for every input log whose parse succeeds, `build_output` lists
benchmarks sorted by their full name; each benchmark's `runs` array is
exactly that benchmark's matching lines in log order; and deleting a
non-matching line from the log leaves the parse (hence every run)
unchanged. -/
theorem build_output_ordered (sqrt : ℚ → ℚ) (lines : List String)
    (bs : List (String × List Run)) (platform goos goarch : String)
    (h : parse_log lines = .ok bs) :
    ((build_output sqrt bs platform goos goarch).benchmarks.map BenchOut.name).Sorted (· ≤ ·) ∧
    (∀ e ∈ (build_output sqrt bs platform goos goarch).benchmarks,
      e.runs = runsInLog e.name lines) ∧
    (∀ pre post bad, parseLine bad = none →
      parse_log (pre ++ bad :: post) = parse_log (pre ++ post)) := by
  refine ⟨?_, ?_, ?_⟩
  · have hmap : (build_output sqrt bs platform goos goarch).benchmarks.map BenchOut.name =
        (bs.map Prod.fst).mergeSort (fun a b => a ≤ b) := by
      unfold build_output
      rw [List.map_map]
      apply List.map_id''
      intro x
      rfl
    rw [hmap]
    exact List.sorted_mergeSort' _
  · intro e he
    unfold build_output at he
    simp only [List.mem_map] at he
    obtain ⟨n, _, rfl⟩ := he
    show lookupRuns bs n = runsInLog n lines
    have := parseGo_lookup lines [] bs h n
    simpa [lookupRuns] using this
  · intro pre post bad hbad
    unfold parse_log
    exact parseGo_skip bad hbad pre post []

/-- Witness for `build_output_ordered` at a concrete two-line log. -/
theorem build_output_ordered_witness :
    parse_log ["BenchmarkB 1 2 ns/op 3 B/op 4 allocs/op", "junk",
        "BenchmarkA 1 7 ns/op 0 B/op 0 allocs/op"] =
      .ok [("BenchmarkB", [⟨2, 3, 4⟩]), ("BenchmarkA", [⟨7, 0, 0⟩])] ∧
    ((build_output id [("BenchmarkB", [⟨2, 3, 4⟩]), ("BenchmarkA", [⟨7, 0, 0⟩])]
        "p" "g" "a").benchmarks.map BenchOut.name).Sorted (· ≤ ·) := by
  have hp : parse_log ["BenchmarkB 1 2 ns/op 3 B/op 4 allocs/op", "junk",
      "BenchmarkA 1 7 ns/op 0 B/op 0 allocs/op"] =
      .ok [("BenchmarkB", [⟨2, 3, 4⟩]), ("BenchmarkA", [⟨7, 0, 0⟩])] := by
    rfl
  exact ⟨hp, (build_output_ordered id _ _ "p" "g" "a" hp).1⟩

/-- Execution relation for the `parse_log` loop: one derivation is one
run of the loop over the remaining lines with the given accumulator,
ending in the loop's outcome (the grouped runs, or the uncaught
`ValueError`). -/
inductive ParseLogRel :
    List String → List (String × List Run) → Except Unit (List (String × List Run)) → Prop
  | done {acc} : ParseLogRel [] acc (.ok acc)
  | skip {l ls acc out} : parseLine l = none →
      ParseLogRel ls acc out → ParseLogRel (l :: ls) acc out
  | crash {l ls acc n} : parseLine l = some (n, none) →
      ParseLogRel (l :: ls) acc (.error ())
  | step {l ls acc out n r} : parseLine l = some (n, some r) →
      ParseLogRel ls (insertRun acc n r) out → ParseLogRel (l :: ls) acc out

/-- One full run of the `parse_benchmarks.py` pipeline on a log file's
lines and the three command-line arguments: parse the log, then build
the JSON document. -/
inductive PipelineRel (sqrt : ℚ → ℚ) (lines : List String)
    (platform goos goarch : String) : Except Unit Output → Prop
  | ok {bs} : ParseLogRel lines [] (.ok bs) →
      PipelineRel sqrt lines platform goos goarch
        (.ok (build_output sqrt bs platform goos goarch))
  | err : ParseLogRel lines [] (.error ()) →
      PipelineRel sqrt lines platform goos goarch (.error ())

lemma parseLogRel_det {lines : List String} {acc : List (String × List Run)}
    {out1 out2 : Except Unit (List (String × List Run))}
    (h1 : ParseLogRel lines acc out1) (h2 : ParseLogRel lines acc out2) : out1 = out2 := by
  induction h1 generalizing out2 with
  | done => cases h2; rfl
  | skip hA _ ih =>
    cases h2 with
    | skip hB p2 => exact ih p2
    | crash hB => rw [hA] at hB; exact Option.noConfusion hB
    | step hB _ => rw [hA] at hB; exact Option.noConfusion hB
  | crash hA =>
    cases h2 with
    | skip hB _ => rw [hA] at hB; exact Option.noConfusion hB
    | crash hB => rfl
    | step hB _ => rw [hA] at hB; simp at hB
  | step hA _ ih =>
    cases h2 with
    | skip hB _ => rw [hA] at hB; exact Option.noConfusion hB
    | crash hB => rw [hA] at hB; simp at hB
    | step hB p2 =>
      rw [hA] at hB
      simp only [Option.some.injEq, Prod.mk.injEq] at hB
      obtain ⟨rfl, rfl⟩ := hB
      exact ih p2

lemma parseLogRel_total : ∀ (lines : List String) (acc : List (String × List Run)),
    ParseLogRel lines acc (parseGo lines acc) := by
  intro lines
  induction lines with
  | nil => intro acc; exact .done
  | cons l ls ih =>
    intro acc
    rcases hl : parseLine l with _ | ⟨m, _ | r⟩
    · have : parseGo (l :: ls) acc = parseGo ls acc := by simp only [parseGo, hl]
      rw [this]
      exact .skip hl (ih acc)
    · have : parseGo (l :: ls) acc = .error () := by simp only [parseGo, hl]
      rw [this]
      exact .crash hl
    · have : parseGo (l :: ls) acc = parseGo ls (insertRun acc m r) := by
        simp only [parseGo, hl]
      rw [this]
      exact .step hl (ih (insertRun acc m r))

/-- The value a complete pipeline run computes, as a function of its
explicit inputs. -/
def runPipeline (sqrt : ℚ → ℚ) (lines : List String)
    (platform goos goarch : String) : Except Unit Output :=
  match parse_log lines with
  | .ok bs => .ok (build_output sqrt bs platform goos goarch)
  | .error e => .error e

/-- C7: the pipeline `build_output ∘ parse_log` is a pure, deterministic
transformation of its explicit inputs: every execution exists and any
two executions on equal log contents and equal platform/goos/goarch
arguments produce equal outputs, with no state carried between
invocations; the embedded `timestamp` is the constant `"2026-02-10"`. -/
theorem pipeline_deterministic (sqrt : ℚ → ℚ) :
    (∀ (lines : List String) (platform goos goarch : String)
        (out1 out2 : Except Unit Output),
      PipelineRel sqrt lines platform goos goarch out1 →
      PipelineRel sqrt lines platform goos goarch out2 → out1 = out2) ∧
    (∀ (lines : List String) (platform goos goarch : String),
      PipelineRel sqrt lines platform goos goarch
        (runPipeline sqrt lines platform goos goarch)) ∧
    (∀ (bs : List (String × List Run)) (platform goos goarch : String),
      (build_output sqrt bs platform goos goarch).timestamp = "2026-02-10") := by
  refine ⟨?_, ?_, ?_⟩
  · intro lines platform goos goarch out1 out2 h1 h2
    cases h1 with
    | ok p1 =>
      cases h2 with
      | ok p2 =>
        obtain rfl := Except.ok.inj (parseLogRel_det p1 p2)
        rfl
      | err p2 => exact Except.noConfusion (parseLogRel_det p1 p2)
    | err p1 =>
      cases h2 with
      | ok p2 => exact Except.noConfusion (parseLogRel_det p1 p2)
      | err p2 => rfl
  · intro lines platform goos goarch
    unfold runPipeline
    rcases hp : parse_log lines with e | bs
    · obtain rfl : e = () := rfl
      exact .err (hp ▸ parseLogRel_total lines [])
    · exact .ok (hp ▸ parseLogRel_total lines [])
  · intro bs platform goos goarch
    rfl

/-- Witness for `pipeline_deterministic` at a concrete log. -/
theorem pipeline_deterministic_witness :
    runPipeline id ["BenchmarkA 1 7 ns/op 0 B/op 0 allocs/op"] "p" "g" "a" =
      runPipeline id ["BenchmarkA 1 7 ns/op 0 B/op 0 allocs/op"] "p" "g" "a" ∧
    (build_output id [] "p" "g" "a").timestamp = "2026-02-10" :=
  ⟨(pipeline_deterministic id).1 ["BenchmarkA 1 7 ns/op 0 B/op 0 allocs/op"] "p" "g" "a" _ _
      ((pipeline_deterministic id).2.1 ["BenchmarkA 1 7 ns/op 0 B/op 0 allocs/op"] "p" "g" "a")
      ((pipeline_deterministic id).2.1 ["BenchmarkA 1 7 ns/op 0 B/op 0 allocs/op"] "p" "g" "a"),
    (pipeline_deterministic id).2.2 [] "p" "g" "a"⟩

end Bench

namespace CL

/-- Modelled from the spec: the changelog engine's implementation is not
among the provided source files, so the whole `CL` namespace transcribes
section 4 of the specification.  The six change types, as an ordered
closed set (spec 4.3 step 2, design note 1). -/
inductive ChangeType where
  | added
  | changed
  | deprecated
  | removed
  | fixed
  | security
  deriving Repr, DecidableEq

/-- Modelled from the spec: the header text of each change type. -/
def ChangeType.name : ChangeType → String
  | .added => "Added"
  | .changed => "Changed"
  | .deprecated => "Deprecated"
  | .removed => "Removed"
  | .fixed => "Fixed"
  | .security => "Security"

/-- Modelled from the spec: priority index in the fixed order
{Added, Changed, Deprecated, Removed, Fixed, Security}. -/
def ChangeType.priority : ChangeType → ℕ
  | .added => 0
  | .changed => 1
  | .deprecated => 2
  | .removed => 3
  | .fixed => 4
  | .security => 5

/-- Modelled from the spec: the fixed priority sequence. -/
def ChangeType.all : List ChangeType :=
  [.added, .changed, .deprecated, .removed, .fixed, .security]

/-- Modelled from the spec: parsing the `type` argument against the
closed six-value set (spec 4.3 step 2). -/
def parseChangeType (s : String) : Option ChangeType :=
  if s = "Added" then some .added
  else if s = "Changed" then some .changed
  else if s = "Deprecated" then some .deprecated
  else if s = "Removed" then some .removed
  else if s = "Fixed" then some .fixed
  else if s = "Security" then some .security
  else none

/-- Modelled from the spec: recognising a change-type subsection header
line `### {type}` (spec 4.2 `findSubsection`). -/
def subHeaderType (l : String) : Option ChangeType :=
  if l = "### Added" then some .added
  else if l = "### Changed" then some .changed
  else if l = "### Deprecated" then some .deprecated
  else if l = "### Removed" then some .removed
  else if l = "### Fixed" then some .fixed
  else if l = "### Security" then some .security
  else none

/-- Modelled from the spec: a version header line starts `## [`
(spec 4.2 `findVersion`, section 6 grammar). -/
def isVersionHeader (l : String) : Bool := "## [".data.isPrefixOf l.data

/-- Modelled from the spec: a subsection header line starts `### `. -/
def isSubHeader (l : String) : Bool := "### ".data.isPrefixOf l.data

/-- Modelled from the spec: `findVersion(label)` matches a header line
`## [label]`, optionally followed by a date/yanked suffix. -/
def matchesVersion (label : String) (l : String) : Bool :=
  l = "## [" ++ label ++ "]" || ("## [" ++ label ++ "] ").data.isPrefixOf l.data

/-- Modelled from the spec: the `YYYY-MM-DD` date shape. -/
def dateChars (cs : List Char) : Bool :=
  match cs with
  | [a, b, c, d, e, f, g, h, i, j] =>
    a.isDigit && b.isDigit && c.isDigit && d.isDigit && e == '-' &&
      f.isDigit && g.isDigit && h == '-' && i.isDigit && j.isDigit
  | _ => false

/-- Modelled from the spec: date validation for an explicitly supplied
date (spec 4.3 step 1). -/
def dateOK (s : String) : Bool := dateChars s.data

/-- Modelled from the spec: split the document at the first header line
matching `label` — the locator's `findVersion` plus the surrounding
lines: before, the header itself, and everything after. -/
def splitAtVersion (label : String) : List String → Option (List String × String × List String)
  | [] => none
  | l :: ls =>
    if matchesVersion label l then some ([], l, ls)
    else
      match splitAtVersion label ls with
      | none => none
      | some (pre, hdr, tail) => some (l :: pre, hdr, tail)

/-- Modelled from the spec: ensure a trailing blank-line separator
before newly created structure (spec 4.3 step 1). -/
def padEnd (ls : List String) : List String :=
  if ls.getLast? = some "" then ls else ls ++ [""]

/-- Modelled from the spec: a subsection of a version body — its `### `
header line and the content lines up to the next subsection header. -/
abbrev Chunk := String × List String

/-- Modelled from the spec: cut a body (no version headers inside) into
the lines before the first subsection header and the subsection chunks —
the locator's repeated `findSubsection` scan, computed in one structural
pass. -/
def chunksR : List String → List String × List Chunk
  | [] => ([], [])
  | l :: ls =>
    let s := chunksR ls
    if isSubHeader l then ([], (l, s.1) :: s.2) else (l :: s.1, s.2)

/-- Modelled from the spec: flatten subsection chunks back into lines. -/
def joinChunks : List Chunk → List String
  | [] => []
  | c :: cs => c.1 :: c.2 ++ joinChunks cs

/-- Modelled from the spec: the change type of a chunk's header line. -/
def chunkType (c : Chunk) : Option ChangeType := subHeaderType c.1

/-- Modelled from the spec: does chunk `c` carry a recognised type of
strictly greater priority index than `t`? -/
def chunkHigher (t : ChangeType) (c : Chunk) : Bool :=
  match chunkType c with
  | some u => t.priority < u.priority
  | none => false

/-- Modelled from the spec: is the subsection for `t` already present? -/
def hasChunk (t : ChangeType) (cs : List Chunk) : Bool :=
  cs.any fun c => chunkType c = some t

/-- Modelled from the spec: insert the item after the contiguous bullet
lines (`lastItemLine`), or at the front when no bullets are present. -/
def insertAfterBullets (item : String) : List String → List String
  | [] => [item]
  | l :: ls =>
    if "- ".data.isPrefixOf l.data then l :: insertAfterBullets item ls
    else item :: l :: ls

/-- Modelled from the spec: append an item into a subsection's content —
skip a single immediately-following blank line, then insert after the
last contiguous bullet (spec 4.2 `lastItemLine`, 4.3 step 3). -/
def insertItem (item : String) (content : List String) : List String :=
  match content with
  | l :: rest => if l = "" then l :: insertAfterBullets item rest else insertAfterBullets item content
  | [] => [item]

/-- Modelled from the spec: add a bullet item to one chunk. -/
def addItem (msg : String) (c : Chunk) : Chunk :=
  (c.1, insertItem ("- " ++ msg) c.2)

/-- Modelled from the spec: add the item to the (present) chunk of type
`t`, leaving every other chunk untouched. -/
def addItemTo (t : ChangeType) (msg : String) : List Chunk → List Chunk
  | [] => []
  | c :: cs => if chunkType c = some t then addItem msg c :: cs else c :: addItemTo t msg cs

/-- Modelled from the spec: a freshly created subsection placed at the
end of the version body: header, blank line, item. -/
def newChunkEnd (t : ChangeType) (msg : String) : Chunk :=
  ("### " ++ t.name, ["", "- " ++ msg])

/-- Modelled from the spec: a freshly created subsection placed before
an existing one, with a trailing blank separator. -/
def newChunkMid (t : ChangeType) (msg : String) : Chunk :=
  ("### " ++ t.name, ["", "- " ++ msg, ""])

/-- Modelled from the spec: insert the new subsection for `t` among the
chunks so that present recognised subsections stay in priority order
(spec 4.3 step 2); called only when the head chunk is not
higher-priority than `t`. -/
def insChunk (t : ChangeType) (msg : String) : List Chunk → List Chunk
  | [] => [newChunkEnd t msg]
  | c :: cs =>
    match cs with
    | [] => [(c.1, padEnd c.2), newChunkEnd t msg]
    | c2 :: cs2 =>
      if chunkHigher t c2 then (c.1, padEnd c.2) :: newChunkMid t msg :: c2 :: cs2
      else c :: insChunk t msg (c2 :: cs2)

/-- Modelled from the spec: steps 2 and 3 of `addEntry` on the body of
the target version section: resolve or create the `t` subsection in
priority position, then append the item. -/
def addToBody (t : ChangeType) (msg : String) (body : List String) : List String :=
  if hasChunk t (chunksR body).2 then
    (chunksR body).1 ++ joinChunks (addItemTo t msg (chunksR body).2)
  else
    match (chunksR body).2 with
    | [] => padEnd (chunksR body).1 ++ joinChunks [newChunkEnd t msg]
    | c :: cs' =>
      if chunkHigher t c then
        padEnd (chunksR body).1 ++ joinChunks (newChunkMid t msg :: c :: cs')
      else (chunksR body).1 ++ joinChunks (insChunk t msg (c :: cs'))

/-- Modelled from the spec: the resolved target version section of one
`addEntry` call — lines before the header, the header line, the section
body, the remaining lines, and whether a new `Unreleased` header was
created (spec 4.3 step 1). -/
structure Target where
  pre : List String
  hdr : String
  body : List String
  rest : List String
  createdU : Bool
  deriving Repr, DecidableEq

/-- Modelled from the spec: step 1 of `addEntry`.  An existing target is
located; a missing `Unreleased` is created at the very top with a
blank-line separator; a missing release version gets a header
`## [version] - date` placed immediately after the `Unreleased` block
(or at the very top if there is no `Unreleased` section). -/
def resolveTarget (version : Option String) (date : Option String) (today : String)
    (doc : List String) : Target :=
  match splitAtVersion (version.getD "Unreleased") doc with
  | some (pre, hdr, tail) =>
    ⟨pre, hdr, tail.takeWhile (fun l => !isVersionHeader l),
      tail.dropWhile (fun l => !isVersionHeader l), false⟩
  | none =>
    if version.getD "Unreleased" = "Unreleased" then
      if doc.isEmpty then ⟨[], "## [Unreleased]", [], [], true⟩
      else
        ⟨[], "## [Unreleased]", "" :: doc.takeWhile (fun l => !isVersionHeader l),
          doc.dropWhile (fun l => !isVersionHeader l), true⟩
    else
      match splitAtVersion "Unreleased" doc with
      | some (preU, hdrU, tailU) =>
        ⟨preU ++ hdrU :: padEnd (tailU.takeWhile (fun l => !isVersionHeader l)),
          "## [" ++ version.getD "Unreleased" ++ "] - " ++ date.getD today,
          [""], tailU.dropWhile (fun l => !isVersionHeader l), false⟩
      | none =>
        ⟨[], "## [" ++ version.getD "Unreleased" ++ "] - " ++ date.getD today,
          "" :: doc.takeWhile (fun l => !isVersionHeader l),
          doc.dropWhile (fun l => !isVersionHeader l), false⟩

/-- Modelled from the spec: `vref(x)` prefixes `v` unless the label
already starts with `v` (spec 4.4 step 2). -/
def vref (x : String) : String :=
  if "v".data.isPrefixOf x.data then x else "v" ++ x

/-- Modelled from the spec: the label of a version header line, when
the line is one. -/
def labelOf (l : String) : Option String :=
  if "## [".data.isPrefixOf l.data then
    some ⟨(l.data.drop 4).takeWhile (fun c => c ≠ ']')⟩
  else none

/-- Modelled from the spec: every version-header label in document
order. -/
def versionLabels (doc : List String) : List String := doc.filterMap labelOf

/-- Modelled from the spec: the version labels excluding `Unreleased`,
in document order — newest first by construction (spec 4.4 step 1). -/
def releaseLabels (doc : List String) : List String :=
  (versionLabels doc).filter (fun s => s ≠ "Unreleased")

/-- Modelled from the spec: whether an `Unreleased` header exists. -/
def hasUnreleasedHeader (doc : List String) : Bool :=
  (versionLabels doc).any (fun s => s = "Unreleased")

/-- Modelled from the spec: release link lines (spec 4.4 step 2): the
oldest version gets a `releases/tag` URL, every other one a `compare`
URL against its predecessor. -/
def releaseLink (slug : String) : List String → List String
  | [] => []
  | [x] => ["[" ++ x ++ "]: https://github.com/" ++ slug ++ "/releases/tag/" ++ vref x]
  | x :: y :: rest =>
    ("[" ++ x ++ "]: https://github.com/" ++ slug ++ "/compare/" ++ vref y ++ "..." ++ vref x) ::
      releaseLink slug (y :: rest)

/-- Modelled from the spec: the full regenerated link block (spec 4.4
steps 2 and 3), with the `Unreleased` reference prepended when that
header exists, falling back to sentinel `v0.0.0`. -/
def linkBlock (slug : String) (unrel : Bool) (vs : List String) : List String :=
  (if unrel then
    ["[Unreleased]: https://github.com/" ++ slug ++ "/compare/" ++
      vref (vs.headD "0.0.0") ++ "...HEAD"]
  else []) ++ releaseLink slug vs

/-- Does the character sequence `pat` occur anywhere in the input? -/
def containsSeq (pat : List Char) : List Char → Bool
  | [] => pat.isEmpty
  | c :: cs => pat.isPrefixOf (c :: cs) || containsSeq pat cs

/-- The input's remainder just after the first occurrence of `pat`. -/
def afterSeq (pat : List Char) : List Char → Option (List Char)
  | [] => none
  | c :: cs =>
    if pat.isPrefixOf (c :: cs) then some ((c :: cs).drop pat.length)
    else afterSeq pat cs

/-- Modelled from the spec: extract an owner/repo slug from a line
containing `github.com/` — the two path segments following the first
occurrence (spec 4.4 step 4). -/
def slugOf (l : String) : Option String :=
  match afterSeq "github.com/".data l.data with
  | none => none
  | some rest =>
    match rest.splitOn '/' with
    | a :: b :: _ => some (⟨a⟩ ++ "/" ++ ⟨b⟩)
    | [a] => some ⟨a⟩
    | [] => some ""

/-- Modelled from the spec: reuse a slug embedded in the document, else
the explicitly supplied one (spec 4.4 step 4). -/
def resolveSlug (explicit : Option String) (doc : List String) : Option String :=
  match doc.filterMap slugOf with
  | s :: _ => some s
  | [] => explicit

/-- Modelled from the spec: `findLinkBlockStart` matches a line of the
shape `[label]: URL` — a simple pattern with no escaping. -/
def isLinkLine (l : String) : Bool :=
  "[".data.isPrefixOf l.data && containsSeq "]: ".data l.data

/-- Modelled from the spec: delete the contiguous link block in full and
insert the fresh block at the same position, or append at end-of-file
with a preceding blank line if none existed (spec 4.4 step 5). -/
def replaceLinkBlock (nb : List String) (doc : List String) : List String :=
  if doc.any isLinkLine then
    doc.takeWhile (fun l => !isLinkLine l) ++ nb ++
      ((doc.dropWhile (fun l => !isLinkLine l)).dropWhile isLinkLine)
  else doc ++ [""] ++ nb

/-- Modelled from the spec: the Link Reference Synthesizer (spec 4.4) —
a soft no-op when no slug can be resolved. -/
def synthesize (explicit : Option String) (doc : List String) : List String :=
  match resolveSlug explicit doc with
  | none => doc
  | some slug =>
    replaceLinkBlock (linkBlock slug (hasUnreleasedHeader doc) (releaseLabels doc)) doc

/-- Modelled from the spec: steps 1-4 of `addEntry` once validation has
passed: resolve/create the version section, resolve/create the
subsection and append the item, then invoke the synthesizer when the
call created `Unreleased` or targets a release version. -/
def mutate (t : ChangeType) (msg : String) (version date : Option String)
    (today : String) (doc : List String) : List String :=
  (resolveTarget version date today doc).pre ++
    (resolveTarget version date today doc).hdr ::
      (addToBody t msg (resolveTarget version date today doc).body ++
        (resolveTarget version date today doc).rest)

/-- Modelled from the spec: the side-effect condition of step 4 — the
synthesizer runs when the call created `Unreleased` or targets a
release version. -/
def addEntryCore (t : ChangeType) (msg : String) (version date slug : Option String)
    (today : String) (doc : List String) : List String :=
  if (resolveTarget version date today doc).createdU ∨
      version.getD "Unreleased" ≠ "Unreleased" then
    synthesize slug (mutate t msg version date today doc)
  else mutate t msg version date today doc

/-- Modelled from the spec: `addEntry(type, message, version?, date?,
ownerRepo?)`.  Validation failures (bad type, bad explicit date) abort
before any mutation (spec 4.3, section 7 SchemaError). -/
def addEntry (ty msg : String) (version date slug : Option String) (today : String)
    (doc : List String) : Except String (List String) :=
  match parseChangeType ty with
  | none => .error "invalid change type"
  | some t =>
    match date with
    | some d => if dateOK d then .ok (addEntryCore t msg version date slug today doc)
                else .error "invalid date"
    | none => .ok (addEntryCore t msg version date slug today doc)

/-- Modelled from the spec: strip an optional ` [YANKED]` suffix. -/
def stripYanked (l : String) : String :=
  if " [YANKED]".data.isSuffixOf l.data then ⟨l.data.take (l.data.length - 9)⟩ else l

/-- Modelled from the spec: after `## [`, a label, then `] - `, then a
valid date and nothing else — the release header shape the validator
accepts. -/
def relTail : List Char → Bool
  | ']' :: ' ' :: '-' :: ' ' :: rest => dateChars rest
  | _ :: rest => relTail rest
  | [] => false

/-- Modelled from the spec: validator acceptance of a `## ` header line:
the literal `## [Unreleased]` (a `[YANKED]` suffix there is only a
warning) or `## [label] - YYYY-MM-DD` optionally suffixed ` [YANKED]`
(spec 4.5). -/
def versionLineOK (l : String) : Bool :=
  let core := stripYanked l
  core = "## [Unreleased]" ||
    (match core.data with
     | '#' :: '#' :: ' ' :: '[' :: rest => relTail rest
     | _ => false)

/-- Modelled from the spec: the per-line fatal errors of the validator:
a malformed version header, or a `### X` header outside the closed
six-value set (spec 4.5). -/
def lineError (l : String) : Bool :=
  ("## ".data.isPrefixOf l.data && !versionLineOK l) ||
  ("### ".data.isPrefixOf l.data && (subHeaderType l).isNone)

/-- Modelled from the spec: warnings modelled here: a yanked
`Unreleased` header, and `Unreleased` not being the first version
header; warnings never affect validity (spec 4.5). -/
def lineWarning (l : String) : Bool :=
  stripYanked l = "## [Unreleased]" && l ≠ "## [Unreleased]"

/-- Modelled from the spec: the validator's diagnostic report — errors
and warnings as independent lists (spec 4.5; the category `info` and the
path-dependent file-naming check fall outside this document-only
model). -/
structure VReport where
  errors : List String
  warnings : List String
  deriving Repr, DecidableEq

/-- Modelled from the spec: the Validator (spec 4.5): a non-empty-file
check plus per-line grammar checks; errors and warnings are collected
independently. -/
def validate (doc : List String) : VReport :=
  { errors := (if doc.isEmpty then ["empty file"] else []) ++
      (doc.filter lineError).map (fun l => "bad header: " ++ l)
    warnings := (doc.filter lineWarning).map (fun l => "yanked unreleased: " ++ l) ++
      (if hasUnreleasedHeader doc && (versionLabels doc).head? ≠ some "Unreleased" then
        ["Unreleased is not the first version header"]
      else []) }

/-- Modelled from the spec: overall validity is defined as zero errors;
warnings never affect validity (spec 4.5). -/
def isValidDoc (doc : List String) : Bool := (validate doc).errors.isEmpty

/-- Modelled from the spec: the recognised change types among a run of
lines, stopping at the next version header — the subsection headers
present under one version. -/
def typesUntilVH : List String → List ChangeType
  | [] => []
  | l :: ls =>
    if isVersionHeader l then []
    else
      match subHeaderType l with
      | some t => t :: typesUntilVH ls
      | none => typesUntilVH ls

/-- Modelled from the spec: the ordered list of recognised change-type
subsections present under the version section labelled `label`. -/
def subTypesUnder (label : String) : List String → List ChangeType
  | [] => []
  | l :: ls => if matchesVersion label l then typesUntilVH ls else subTypesUnder label ls

/-- Modelled from the spec: the ordered recognised change-type headers of
a run of lines. -/
def typesOf (ls : List String) : List ChangeType := ls.filterMap subHeaderType

/-- Modelled from the spec: the ordered recognised change types of a list
of subsection chunks. -/
def typesOfChunks (cs : List Chunk) : List ChangeType := cs.filterMap chunkType

/-- Modelled from the spec: insertion of a change type before the first
strictly higher-priority entry — the abstract shape of the priority scan
of spec 4.3 step 2. -/
def insertT (t : ChangeType) : List ChangeType → List ChangeType
  | [] => [t]
  | u :: us => if t.priority < u.priority then t :: u :: us else u :: insertT t us

/-- Modelled from the spec: one `addEntry` call's arguments. -/
structure Call where
  ty : String
  msg : String
  version : Option String
  date : Option String
  slug : Option String

/-- Modelled from the spec: run one call against the document; a failed
call leaves the document exactly unchanged (all-or-nothing, spec 4.3). -/
def applyCall (today : String) (doc : List String) (c : Call) : List String :=
  match addEntry c.ty c.msg c.version c.date c.slug today doc with
  | .ok d => d
  | .error _ => doc

/-- Modelled from the spec: run a sequence of `addEntry` calls. -/
def applyCalls (today : String) (calls : List Call) (doc : List String) : List String :=
  calls.foldl (applyCall today) doc

lemma takeWhile_append_all {α} {p : α → Bool} {xs : List α} (ys : List α)
    (h : ∀ x ∈ xs, p x = true) : (xs ++ ys).takeWhile p = xs ++ ys.takeWhile p := by
  induction xs with
  | nil => simp
  | cons a l ih =>
    simp only [List.cons_append, List.takeWhile_cons, h a (by simp), if_true]
    rw [ih (fun x hx => h x (by simp [hx]))]

lemma dropWhile_append_all {α} {p : α → Bool} {xs : List α} (ys : List α)
    (h : ∀ x ∈ xs, p x = true) : (xs ++ ys).dropWhile p = ys.dropWhile p := by
  induction xs with
  | nil => simp
  | cons a l ih =>
    simp only [List.cons_append, List.dropWhile_cons, h a (by simp), if_pos]
    exact ih (fun x hx => h x (by simp [hx]))

lemma takeWhile_append_stop {α} {p : α → Bool} {xs : List α} {y : α} (ys : List α)
    (h : ∀ x ∈ xs, p x = true) (hy : p y = false) :
    (xs ++ y :: ys).takeWhile p = xs := by
  rw [takeWhile_append_all _ h, List.takeWhile_cons, hy]
  simp

lemma dropWhile_append_stop {α} {p : α → Bool} {xs : List α} {y : α} (ys : List α)
    (h : ∀ x ∈ xs, p x = true) (hy : p y = false) :
    (xs ++ y :: ys).dropWhile p = y :: ys := by
  rw [dropWhile_append_all _ h, List.dropWhile_cons, hy]
  simp

lemma subHeaderType_none_of_not_sub {l : String} (h : isSubHeader l = false) :
    subHeaderType l = none := by
  unfold subHeaderType
  split_ifs with h1 h2 h3 h4 h5 h6
  · rw [h1] at h; exact absurd h (by decide)
  · rw [h2] at h; exact absurd h (by decide)
  · rw [h3] at h; exact absurd h (by decide)
  · rw [h4] at h; exact absurd h (by decide)
  · rw [h5] at h; exact absurd h (by decide)
  · rw [h6] at h; exact absurd h (by decide)
  · rfl

lemma labelOf_none_of_not_vh {l : String} (h : isVersionHeader l = false) :
    labelOf l = none := by
  unfold labelOf
  unfold isVersionHeader at h
  rw [h]
  rfl

lemma isVersionHeader_of_matches {label l : String} (h : matchesVersion label l = true) :
    isVersionHeader l = true := by
  unfold matchesVersion at h
  rcases Bool.or_eq_true_iff.mp h with he | hp
  · have : l = "## [" ++ label ++ "]" := by
      exact decide_eq_true_eq.mp he
    subst this
    show ("## [".data.isPrefixOf ('#' :: '#' :: ' ' :: '[' :: (label.data ++ [']']))) = true
    simp [List.isPrefixOf]
  · unfold isVersionHeader
    have hpre : ("## [" ++ label ++ "] ").data <+: l.data :=
      List.isPrefixOf_iff_prefix.mp hp
    have : ("## [".data : List Char) <+: ("## [" ++ label ++ "] ").data := by
      show ("## [".data : List Char) <+:
        '#' :: '#' :: ' ' :: '[' :: (label.data ++ [']', ' '])
      exact ⟨label.data ++ [']', ' '], rfl⟩
    exact List.isPrefixOf_iff_prefix.mpr (this.trans hpre)

lemma matchesVersion_false_of_not_vh {label l : String} (h : isVersionHeader l = false) :
    matchesVersion label l = false := by
  by_contra hc
  rw [Bool.not_eq_false] at hc
  rw [isVersionHeader_of_matches hc] at h
  exact Bool.noConfusion h

lemma subHeaderType_dash (msg : String) : subHeaderType ("- " ++ msg) = none := rfl

lemma isVersionHeader_dash (msg : String) : isVersionHeader ("- " ++ msg) = false := rfl

lemma isSubHeader_dash (msg : String) : isSubHeader ("- " ++ msg) = false := rfl

lemma lineError_dash (msg : String) : lineError ("- " ++ msg) = false := rfl

lemma isVersionHeader_lbracket (x : String) : isVersionHeader ("[" ++ x) = false := rfl

lemma isSubHeader_lbracket (x : String) : isSubHeader ("[" ++ x) = false := rfl

lemma lineError_lbracket (x : String) : lineError ("[" ++ x) = false := rfl

lemma isVersionHeader_subheader (t : ChangeType) :
    isVersionHeader ("### " ++ t.name) = false := by cases t <;> rfl

lemma subHeaderType_name (t : ChangeType) : subHeaderType ("### " ++ t.name) = some t := by
  cases t <;> rfl

lemma lineError_subheader (t : ChangeType) : lineError ("### " ++ t.name) = false := by
  cases t <;> rfl

lemma parseChangeType_name (t : ChangeType) : parseChangeType t.name = some t := by
  cases t <;> rfl

/-- C1: on the empty document, `addEntry("Added", "X")` produces exactly
the five lines `## [Unreleased]`, blank, `### Added`, blank, `- X`, with
the newly created `Unreleased` header at the very top of the file. -/
theorem addEntry_empty_doc (today : String) :
    addEntry "Added" "X" none none none today [] =
      Except.ok ["## [Unreleased]", "", "### Added", "", "- X"] := rfl

/-- C2: `addEntry` is all-or-nothing — an invalid change type or an
explicitly supplied date not of the form `YYYY-MM-DD` makes the call
fail before any line is inserted, and the document is exactly
unchanged. -/
theorem addEntry_all_or_nothing (c : Call) (today : String) (doc : List String)
    (h : parseChangeType c.ty = none ∨ ∃ d, c.date = some d ∧ dateOK d = false) :
    (∃ e, addEntry c.ty c.msg c.version c.date c.slug today doc = Except.error e) ∧
    applyCall today doc c = doc := by
  have herr : ∃ e, addEntry c.ty c.msg c.version c.date c.slug today doc = Except.error e := by
    unfold addEntry
    rcases h with h | ⟨d, hd, hbad⟩
    · rw [h]
      exact ⟨"invalid change type", rfl⟩
    · cases hpt : parseChangeType c.ty with
      | none => exact ⟨"invalid change type", rfl⟩
      | some t =>
        rw [hd]
        refine ⟨"invalid date", ?_⟩
        simp [hbad]
  obtain ⟨e, he⟩ := herr
  refine ⟨⟨e, he⟩, ?_⟩
  unfold applyCall
  rw [he]

/-- Witness for `addEntry_all_or_nothing` at a concrete bad call. -/
theorem addEntry_all_or_nothing_witness :
    parseChangeType "Bogus" = none ∧
    (∃ e, addEntry "Bogus" "m" none none none "2026-02-10" ["x"] = Except.error e) ∧
    applyCall "2026-02-10" ["x"] ⟨"Bogus", "m", none, none, none⟩ = ["x"] :=
  ⟨by decide,
    addEntry_all_or_nothing ⟨"Bogus", "m", none, none, none⟩ "2026-02-10" ["x"]
      (Or.inl (by decide))⟩

/-- C4: for a document whose version headers are exactly
`[Unreleased, 2.0.0, 1.5.0]` and owner/repo slug `acme/widget`,
link-reference synthesis yields exactly the three expected lines: the
oldest version gets a `releases/tag` URL, each newer one a `compare` URL
against its predecessor, and `vref` prefixes `v`. -/
theorem link_synthesis_exact (doc : List String)
    (hv : versionLabels doc = ["Unreleased", "2.0.0", "1.5.0"]) :
    linkBlock "acme/widget" (hasUnreleasedHeader doc) (releaseLabels doc) =
      ["[Unreleased]: https://github.com/acme/widget/compare/v2.0.0...HEAD",
       "[2.0.0]: https://github.com/acme/widget/compare/v1.5.0...v2.0.0",
       "[1.5.0]: https://github.com/acme/widget/releases/tag/v1.5.0"] := by
  unfold hasUnreleasedHeader releaseLabels
  rw [hv]
  rfl

lemma chunksR_cons_sub {l : String} (ls : List String) (hl : isSubHeader l = true) :
    chunksR (l :: ls) = ([], (l, (chunksR ls).1) :: (chunksR ls).2) := by
  simp [chunksR, hl]

lemma chunksR_cons_nosub {l : String} (ls : List String) (hl : isSubHeader l = false) :
    chunksR (l :: ls) = (l :: (chunksR ls).1, (chunksR ls).2) := by
  simp [chunksR, hl]

lemma chunksR_join (body : List String) :
    (chunksR body).1 ++ joinChunks (chunksR body).2 = body := by
  induction body with
  | nil => rfl
  | cons l ls ih =>
    cases hl : isSubHeader l
    · rw [chunksR_cons_nosub ls hl]
      show (l :: (chunksR ls).1) ++ joinChunks (chunksR ls).2 = l :: ls
      rw [List.cons_append, ih]
    · rw [chunksR_cons_sub ls hl]
      show joinChunks ((l, (chunksR ls).1) :: (chunksR ls).2) = l :: ls
      show l :: ((chunksR ls).1 ++ joinChunks (chunksR ls).2) = l :: ls
      rw [ih]

lemma chunksR_mem (body : List String) :
    (∀ l ∈ (chunksR body).1, l ∈ body) ∧
    (∀ c ∈ (chunksR body).2, c.1 ∈ body ∧ ∀ x ∈ c.2, x ∈ body) := by
  induction body with
  | nil => constructor <;> intro c hc <;> simp [chunksR] at hc
  | cons l ls ih =>
    cases hl : isSubHeader l
    · rw [chunksR_cons_nosub ls hl]
      constructor
      · intro x hx
        rcases List.mem_cons.mp hx with rfl | hmem
        · simp
        · exact List.mem_cons_of_mem l (ih.1 x hmem)
      · intro c hc
        obtain ⟨h1, h2⟩ := ih.2 c hc
        exact ⟨List.mem_cons_of_mem l h1, fun x hx => List.mem_cons_of_mem l (h2 x hx)⟩
    · rw [chunksR_cons_sub ls hl]
      constructor
      · intro x hx
        simp at hx
      · intro c hc
        rcases List.mem_cons.mp hc with rfl | hmem
        · exact ⟨by simp, fun x hx => List.mem_cons_of_mem l (ih.1 x hx)⟩
        · obtain ⟨h1, h2⟩ := ih.2 c hmem
          exact ⟨List.mem_cons_of_mem l h1, fun x hx => List.mem_cons_of_mem l (h2 x hx)⟩

lemma mem_joinChunks {x : String} : ∀ {cs : List Chunk}, x ∈ joinChunks cs →
    ∃ c ∈ cs, x = c.1 ∨ x ∈ c.2 := by
  intro cs
  induction cs with
  | nil => intro hx; exact absurd hx (by simp [joinChunks])
  | cons c cs ih =>
    intro hx
    have hx' : x ∈ c.1 :: (c.2 ++ joinChunks cs) := hx
    rcases List.mem_cons.mp hx' with rfl | hmem
    · exact ⟨c, by simp, Or.inl rfl⟩
    · rcases List.mem_append.mp hmem with hc | hj
      · exact ⟨c, by simp, Or.inr hc⟩
      · obtain ⟨cq, hcq, hor⟩ := ih hj
        exact ⟨cq, List.mem_cons_of_mem c hcq, hor⟩

lemma mem_padEnd {x : String} {ls : List String} (hx : x ∈ padEnd ls) :
    x = "" ∨ x ∈ ls := by
  unfold padEnd at hx
  split_ifs at hx with h
  · exact Or.inr hx
  · rcases List.mem_append.mp hx with hm | hm
    · exact Or.inr hm
    · exact Or.inl (by simpa using hm)

lemma mem_insertAfterBullets {item x : String} : ∀ {c : List String},
    x ∈ insertAfterBullets item c → x = item ∨ x ∈ c := by
  intro c
  induction c with
  | nil => intro hx; exact Or.inl (by simpa [insertAfterBullets] using hx)
  | cons l ls ih =>
    intro hx
    unfold insertAfterBullets at hx
    split_ifs at hx with h
    · rcases List.mem_cons.mp hx with rfl | hmem
      · exact Or.inr (by simp)
      · rcases ih hmem with h1 | h1
        · exact Or.inl h1
        · exact Or.inr (List.mem_cons_of_mem l h1)
    · rcases List.mem_cons.mp hx with rfl | hmem
      · exact Or.inl rfl
      · exact Or.inr hmem

lemma mem_insertItem {item x : String} {c : List String} (hx : x ∈ insertItem item c) :
    x = item ∨ x ∈ c := by
  rcases c with _ | ⟨l, rest⟩
  · exact Or.inl (by simpa [insertItem] using hx)
  · have hx' : x ∈ if l = "" then l :: insertAfterBullets item rest
        else insertAfterBullets item (l :: rest) := hx
    split_ifs at hx' with h
    · rcases List.mem_cons.mp hx' with rfl | hmem
      · exact Or.inr (by simp)
      · rcases mem_insertAfterBullets hmem with h1 | h1
        · exact Or.inl h1
        · exact Or.inr (List.mem_cons_of_mem l h1)
    · rcases mem_insertAfterBullets hx' with h1 | h1
      · exact Or.inl h1
      · exact Or.inr h1

lemma splitAtVersion_eq {label : String} : ∀ {doc pre hdr tail},
    splitAtVersion label doc = some (pre, hdr, tail) →
    doc = pre ++ hdr :: tail ∧ (∀ l ∈ pre, matchesVersion label l = false) ∧
      matchesVersion label hdr = true := by
  intro doc
  induction doc with
  | nil => intro pre hdr tail h; exact absurd h (by simp [splitAtVersion])
  | cons l ls ih =>
    intro pre hdr tail h
    unfold splitAtVersion at h
    split_ifs at h with hm
    · obtain ⟨rfl, rfl, rfl⟩ : pre = [] ∧ hdr = l ∧ tail = ls := by
        simpa using h.symm
      exact ⟨by simp, by simp, hm⟩
    · rcases hs : splitAtVersion label ls with _ | ⟨⟨pre2, hdr2, tail2⟩⟩
      · rw [hs] at h; exact Option.noConfusion h
      · rw [hs] at h
        obtain ⟨rfl, rfl, rfl⟩ : pre = l :: pre2 ∧ hdr = hdr2 ∧ tail = tail2 := by
          simpa using h.symm
        obtain ⟨hd, hp, hh⟩ := ih hs
        refine ⟨by rw [hd]; simp, ?_, hh⟩
        intro x hx
        rcases List.mem_cons.mp hx with rfl | hmem
        · simpa using hm
        · exact hp x hmem

lemma relTail_cons_ne {c : Char} (rest : List Char) (h : c ≠ ']') :
    relTail (c :: rest) = relTail rest := by
  rw [relTail.eq_def]
  split
  · next heq =>
    simp only [List.cons.injEq] at heq
    exact absurd heq.1 h
  · next x xs heq =>
    simp only [List.cons.injEq] at heq
    rw [heq.2]
  · next heq => exact absurd heq (by simp)

lemma relTail_append {v : List Char} (hv : ∀ c ∈ v, c ≠ ']') (d : List Char) :
    relTail (v ++ ']' :: ' ' :: '-' :: ' ' :: d) = dateChars d := by
  induction v with
  | nil => rfl
  | cons c cs ih =>
    rw [List.cons_append, relTail_cons_ne _ (hv c (by simp))]
    exact ih (fun x hx => hv x (by simp [hx]))

lemma dateChars_last {cs : List Char} (h : dateChars cs = true) :
    ∃ j rest, cs.reverse = j :: rest ∧ j.isDigit = true := by
  unfold dateChars at h
  split at h
  · next tl a b c d4 e f g h8 i j =>
    simp only [Bool.and_eq_true] at h
    exact ⟨j, _, rfl, h.2⟩
  · exact Bool.noConfusion h

lemma header_data (v d : String) :
    ("## [" ++ v ++ "] - " ++ d).data =
      '#' :: '#' :: ' ' :: '[' :: (v.data ++ (']' :: ' ' :: '-' :: ' ' :: d.data)) := by
  show ("## [".data ++ v.data ++ "] - ".data ++ d.data) = _
  simp

lemma yanked_suffix_false {v d : String} (hd : dateOK d = true) :
    (" [YANKED]".data.isSuffixOf ("## [" ++ v ++ "] - " ++ d).data) = false := by
  obtain ⟨j, rest, hrev, hj⟩ := dateChars_last hd
  show (" [YANKED]".data.reverse.isPrefixOf ("## [" ++ v ++ "] - " ++ d).data.reverse) = false
  have hdata : ("## [" ++ v ++ "] - " ++ d).data = ("## [" ++ v ++ "] - ").data ++ d.data := rfl
  rw [hdata, List.reverse_append, hrev]
  rw [show (" [YANKED]".data.reverse) = ']' :: ['D', 'E', 'K', 'N', 'A', 'Y', '[', ' '] from rfl]
  have hne : (']' == j) = false := by
    rw [beq_eq_false_iff_ne]
    intro he
    rw [← he] at hj
    exact absurd hj (by decide)
  simp [List.isPrefixOf, hne]

lemma stripYanked_relHeader {v d : String} (hd : dateOK d = true) :
    stripYanked ("## [" ++ v ++ "] - " ++ d) = "## [" ++ v ++ "] - " ++ d := by
  unfold stripYanked
  rw [yanked_suffix_false hd]
  rfl

lemma versionLineOK_relHeader {v d : String} (hv : ∀ c ∈ v.data, c ≠ ']')
    (hd : dateOK d = true) :
    versionLineOK ("## [" ++ v ++ "] - " ++ d) = true := by
  unfold versionLineOK
  rw [stripYanked_relHeader hd]
  rw [Bool.or_eq_true]
  right
  rw [header_data]
  show relTail (v.data ++ (']' :: ' ' :: '-' :: ' ' :: d.data)) = true
  rw [relTail_append hv]
  exact hd

lemma lineError_relHeader {v d : String} (hv : ∀ c ∈ v.data, c ≠ ']')
    (hd : dateOK d = true) :
    lineError ("## [" ++ v ++ "] - " ++ d) = false := by
  unfold lineError
  rw [versionLineOK_relHeader hv hd]
  have h3 : ("### ".data.isPrefixOf ("## [" ++ v ++ "] - " ++ d).data) = false := by
    rw [header_data]
    rfl
  rw [h3]
  simp

lemma releaseLink_mem (slug : String) : ∀ (vs : List String) (x : String),
    x ∈ releaseLink slug vs →
    isVersionHeader x = false ∧ isSubHeader x = false ∧ lineError x = false
  | [], x, hx => absurd hx (by simp [releaseLink])
  | [v], x, hx => by
    have hxe : x = "[" ++ v ++ "]: https://github.com/" ++ slug ++ "/releases/tag/" ++ vref v := by
      simpa [releaseLink] using hx
    subst hxe
    exact ⟨rfl, rfl, rfl⟩
  | v1 :: v2 :: rest, x, hx => by
    have hx' : x = ("[" ++ v1 ++ "]: https://github.com/" ++ slug ++ "/compare/" ++
        vref v2 ++ "..." ++ vref v1) ∨ x ∈ releaseLink slug (v2 :: rest) :=
      List.mem_cons.mp hx
    rcases hx' with rfl | hmem
    · exact ⟨rfl, rfl, rfl⟩
    · exact releaseLink_mem slug (v2 :: rest) x hmem

lemma linkBlock_mem {slug : String} {u : Bool} {vs : List String} {x : String}
    (hx : x ∈ linkBlock slug u vs) :
    isVersionHeader x = false ∧ isSubHeader x = false ∧ lineError x = false := by
  unfold linkBlock at hx
  rcases List.mem_append.mp hx with hm | hm
  · cases u
    · simp at hm
    · have hxe : x = "[Unreleased]: https://github.com/" ++ slug ++ "/compare/" ++
          vref (vs.headD "0.0.0") ++ "...HEAD" := by
        simpa using hm
      subst hxe
      exact ⟨rfl, rfl, rfl⟩
  · exact releaseLink_mem slug vs x hm

lemma mem_replaceLinkBlock {nb doc : List String} {x : String}
    (hx : x ∈ replaceLinkBlock nb doc) : x ∈ doc ∨ x ∈ nb ∨ x = "" := by
  unfold replaceLinkBlock at hx
  split_ifs at hx with h
  · rcases List.mem_append.mp hx with hm | hm
    · rcases List.mem_append.mp hm with hm2 | hm2
      · exact Or.inl ((List.takeWhile_sublist _).subset hm2)
      · exact Or.inr (Or.inl hm2)
    · exact Or.inl ((List.dropWhile_sublist _).subset ((List.dropWhile_sublist _).subset hm))
  · rcases List.mem_append.mp hx with hm | hm
    · rcases List.mem_append.mp hm with hm2 | hm2
      · exact Or.inl hm2
      · exact Or.inr (Or.inr (by simpa using hm2))
    · exact Or.inr (Or.inl hm)

lemma mem_synthesize {slug : Option String} {doc : List String} {x : String}
    (hx : x ∈ synthesize slug doc) :
    x ∈ doc ∨ x = "" ∨
      (isVersionHeader x = false ∧ isSubHeader x = false ∧ lineError x = false) := by
  unfold synthesize at hx
  rcases hres : resolveSlug slug doc with _ | s
  · rw [hres] at hx
    exact Or.inl hx
  · rw [hres] at hx
    rcases mem_replaceLinkBlock hx with hm | hm | hm
    · exact Or.inl hm
    · exact Or.inr (Or.inr (linkBlock_mem hm))
    · exact Or.inr (Or.inl hm)

lemma synthesize_mem_of_not_link {slug : Option String} {doc : List String} {x : String}
    (hx : x ∈ doc) (hnl : isLinkLine x = false) : x ∈ synthesize slug doc := by
  unfold synthesize
  rcases resolveSlug slug doc with _ | s
  · exact hx
  · unfold replaceLinkBlock
    split_ifs with h
    · rw [← List.takeWhile_append_dropWhile (p := fun l => !isLinkLine l) (l := doc)] at hx
      rcases List.mem_append.mp hx with hm | hm
      · exact List.mem_append.mpr (Or.inl (List.mem_append.mpr (Or.inl hm)))
      · rw [← List.takeWhile_append_dropWhile (p := isLinkLine)
            (l := doc.dropWhile (fun l => !isLinkLine l))] at hm
        rcases List.mem_append.mp hm with hm2 | hm2
        · have := List.mem_takeWhile_imp hm2
          rw [hnl] at this
          exact Bool.noConfusion this
        · exact List.mem_append.mpr (Or.inr hm2)
    · exact List.mem_append.mpr (Or.inl (List.mem_append.mpr (Or.inl hx)))

lemma joinChunks_cons (c : Chunk) (cs : List Chunk) :
    joinChunks (c :: cs) = c.1 :: (c.2 ++ joinChunks cs) := rfl

lemma mem_join_addItemTo {t : ChangeType} {msg x : String} : ∀ {cs : List Chunk},
    x ∈ joinChunks (addItemTo t msg cs) → x = "- " ++ msg ∨ x ∈ joinChunks cs := by
  intro cs
  induction cs with
  | nil => intro hx; exact absurd hx (by simp [addItemTo, joinChunks])
  | cons c cs ih =>
    intro hx
    unfold addItemTo at hx
    split_ifs at hx with h
    · rw [joinChunks_cons] at hx
      rcases List.mem_cons.mp hx with rfl | hmem
      · exact Or.inr (by rw [joinChunks_cons]; simp [addItem])
      · rcases List.mem_append.mp hmem with hm | hm
        · rcases mem_insertItem hm with h1 | h1
          · exact Or.inl h1
          · exact Or.inr (by rw [joinChunks_cons]; simp [h1])
        · exact Or.inr (by rw [joinChunks_cons]; simp [hm])
    · rw [joinChunks_cons] at hx
      rcases List.mem_cons.mp hx with rfl | hmem
      · exact Or.inr (by rw [joinChunks_cons]; simp)
      · rcases List.mem_append.mp hmem with hm | hm
        · exact Or.inr (by rw [joinChunks_cons]; simp [hm])
        · rcases ih hm with h1 | h1
          · exact Or.inl h1
          · exact Or.inr (by rw [joinChunks_cons]; simp [h1])

lemma mem_join_insChunk {t : ChangeType} {msg x : String} : ∀ {cs : List Chunk},
    x ∈ joinChunks (insChunk t msg cs) →
    x = "### " ++ t.name ∨ x = "" ∨ x = "- " ++ msg ∨ x ∈ joinChunks cs := by
  intro cs
  induction cs with
  | nil =>
    intro hx
    have : x ∈ joinChunks [newChunkEnd t msg] := hx
    rw [joinChunks_cons] at this
    rcases List.mem_cons.mp this with rfl | hmem
    · exact Or.inl rfl
    · rcases (by simpa [newChunkEnd, joinChunks] using hmem : x = "" ∨ x = "- " ++ msg) with h1 | h1
      · exact Or.inr (Or.inl h1)
      · exact Or.inr (Or.inr (Or.inl h1))
  | cons c cs ih =>
    intro hx
    rcases cs with _ | ⟨c2, cs2⟩
    · have hx' : x ∈ joinChunks [(c.1, padEnd c.2), newChunkEnd t msg] := hx
      simp only [joinChunks, newChunkEnd, List.append_nil] at hx'
      rcases List.mem_cons.mp hx' with rfl | hmem
      · refine Or.inr (Or.inr (Or.inr ?_))
        rw [joinChunks_cons]
        simp
      · rcases List.mem_append.mp hmem with hm | hm
        · rcases mem_padEnd hm with h1 | h1
          · exact Or.inr (Or.inl h1)
          · refine Or.inr (Or.inr (Or.inr ?_))
            rw [joinChunks_cons]
            simp [h1]
        · rcases List.mem_cons.mp hm with rfl | hmem2
          · exact Or.inl rfl
          · rcases (by simpa using hmem2 : x = "" ∨ x = "- " ++ msg) with h1 | h1
            · exact Or.inr (Or.inl h1)
            · exact Or.inr (Or.inr (Or.inl h1))
    · have hx' : x ∈ joinChunks (if chunkHigher t c2 then
          (c.1, padEnd c.2) :: newChunkMid t msg :: c2 :: cs2
        else c :: insChunk t msg (c2 :: cs2)) := hx
      split_ifs at hx' with h
      · rw [joinChunks_cons] at hx'
        rcases List.mem_cons.mp hx' with rfl | hmem
        · exact Or.inr (Or.inr (Or.inr (by rw [joinChunks_cons]; simp)))
        · rcases List.mem_append.mp hmem with hm | hm
          · rcases mem_padEnd hm with h1 | h1
            · exact Or.inr (Or.inl h1)
            · exact Or.inr (Or.inr (Or.inr (by rw [joinChunks_cons]; simp [h1])))
          · rw [joinChunks_cons] at hm
            rcases List.mem_cons.mp hm with rfl | hmem2
            · exact Or.inl rfl
            · rcases List.mem_append.mp hmem2 with hm2 | hm2
              · rcases (by simpa [newChunkMid] using hm2 :
                    x = "" ∨ x = "- " ++ msg ∨ x = "") with h1 | h1 | h1
                · exact Or.inr (Or.inl h1)
                · exact Or.inr (Or.inr (Or.inl h1))
                · exact Or.inr (Or.inl h1)
              · exact Or.inr (Or.inr (Or.inr (by rw [joinChunks_cons]; simp [hm2])))
      · rw [joinChunks_cons] at hx'
        rcases List.mem_cons.mp hx' with rfl | hmem
        · exact Or.inr (Or.inr (Or.inr (by rw [joinChunks_cons]; simp)))
        · rcases List.mem_append.mp hmem with hm | hm
          · exact Or.inr (Or.inr (Or.inr (by rw [joinChunks_cons]; simp [hm])))
          · rcases ih hm with h1 | h1 | h1 | h1
            · exact Or.inl h1
            · exact Or.inr (Or.inl h1)
            · exact Or.inr (Or.inr (Or.inl h1))
            · exact Or.inr (Or.inr (Or.inr (by rw [joinChunks_cons]; simp [h1])))

lemma mem_addToBody {t : ChangeType} {msg : String} {body : List String} {x : String}
    (hx : x ∈ addToBody t msg body) :
    x ∈ body ∨ x = "" ∨ x = "### " ++ t.name ∨ x = "- " ++ msg := by
  have hlead : ∀ y ∈ (chunksR body).1, y ∈ body := (chunksR_mem body).1
  have hjoin : ∀ y ∈ joinChunks (chunksR body).2, y ∈ body := by
    intro y hy
    obtain ⟨c, hc, hor⟩ := mem_joinChunks hy
    obtain ⟨h1, h2⟩ := (chunksR_mem body).2 c hc
    rcases hor with rfl | hm
    · exact h1
    · exact h2 y hm
  unfold addToBody at hx
  split_ifs at hx with h
  · rcases List.mem_append.mp hx with hm | hm
    · exact Or.inl (hlead x hm)
    · rcases mem_join_addItemTo hm with h1 | h1
      · exact Or.inr (Or.inr (Or.inr h1))
      · exact Or.inl (hjoin x h1)
  · rcases hcs : (chunksR body).2 with _ | ⟨c, cs'⟩
    · rw [hcs] at hx
      rcases List.mem_append.mp hx with hm | hm
      · rcases mem_padEnd hm with h1 | h1
        · exact Or.inr (Or.inl h1)
        · exact Or.inl (hlead x h1)
      · rcases (by simpa [joinChunks, newChunkEnd] using hm :
            x = "### " ++ t.name ∨ x = "" ∨ x = "- " ++ msg) with h1 | h1 | h1
        · exact Or.inr (Or.inr (Or.inl h1))
        · exact Or.inr (Or.inl h1)
        · exact Or.inr (Or.inr (Or.inr h1))
    · rw [hcs] at hx
      have hx2 : x ∈ (if chunkHigher t c then
          padEnd (chunksR body).1 ++ joinChunks (newChunkMid t msg :: c :: cs')
        else (chunksR body).1 ++ joinChunks (insChunk t msg (c :: cs'))) := hx
      split_ifs at hx2 with h2
      · rcases List.mem_append.mp hx2 with hm | hm
        · rcases mem_padEnd hm with h1 | h1
          · exact Or.inr (Or.inl h1)
          · exact Or.inl (hlead x h1)
        · rw [joinChunks_cons] at hm
          rcases List.mem_cons.mp hm with rfl | hmem
          · exact Or.inr (Or.inr (Or.inl rfl))
          · rcases List.mem_append.mp hmem with hm2 | hm2
            · rcases (by simpa [newChunkMid] using hm2 :
                  x = "" ∨ x = "- " ++ msg ∨ x = "") with h1 | h1 | h1
              · exact Or.inr (Or.inl h1)
              · exact Or.inr (Or.inr (Or.inr h1))
              · exact Or.inr (Or.inl h1)
            · exact Or.inl (hjoin x (by rw [hcs]; exact hm2))
      · rcases List.mem_append.mp hx2 with hm | hm
        · exact Or.inl (hlead x hm)
        · rcases mem_join_insChunk hm with h1 | h1 | h1 | h1
          · exact Or.inr (Or.inr (Or.inl h1))
          · exact Or.inr (Or.inl h1)
          · exact Or.inr (Or.inr (Or.inr h1))
          · exact Or.inl (hjoin x (by rw [hcs]; exact h1))

lemma isVersionHeader_relHeader (v d : String) :
    isVersionHeader ("## [" ++ v ++ "] - " ++ d) = true := by
  unfold isVersionHeader
  rw [header_data]
  simp [List.isPrefixOf]

lemma isLinkLine_false_of_vh {l : String} (h : isVersionHeader l = true) :
    isLinkLine l = false := by
  unfold isVersionHeader at h
  rcases hl : l.data with _ | ⟨c, rest⟩
  · rw [hl] at h
    exact Bool.noConfusion h
  · rw [hl] at h
    have hc : ('#' == c) = true := by
      by_contra hcc
      rw [Bool.not_eq_true] at hcc
      have hfalse : List.isPrefixOf "## [".data (c :: rest) = false := by
        show (('#' == c) && List.isPrefixOf ['#', ' ', '['] rest) = false
        rw [hcc]
        rfl
      rw [hfalse] at h
      exact Bool.noConfusion h
    obtain rfl : c = '#' := (beq_iff_eq.mp hc).symm
    unfold isLinkLine
    rw [hl]
    rfl

lemma resolveTarget_spec (version date : Option String) (today : String) (doc : List String) :
    (∀ l ∈ (resolveTarget version date today doc).pre, l ∈ doc ∨ l = "") ∧
    (∀ l ∈ (resolveTarget version date today doc).body, l ∈ doc ∨ l = "") ∧
    (∀ l ∈ (resolveTarget version date today doc).rest, l ∈ doc) ∧
    isVersionHeader (resolveTarget version date today doc).hdr = true ∧
    ((resolveTarget version date today doc).hdr ∈ doc ∨
      (resolveTarget version date today doc).hdr = "## [Unreleased]" ∨
      ∃ v, version = some v ∧
        (resolveTarget version date today doc).hdr =
          "## [" ++ v ++ "] - " ++ date.getD today) := by
  unfold resolveTarget
  rcases hsp : splitAtVersion (version.getD "Unreleased") doc with _ | ⟨⟨pre, hdr, tail⟩⟩
  · split_ifs with hlab hempty
    · refine ⟨by simp, by simp, by simp, rfl, Or.inr (Or.inl rfl)⟩
    · refine ⟨by simp, ?_, ?_, rfl, Or.inr (Or.inl rfl)⟩
      · intro l hl
        rcases List.mem_cons.mp hl with rfl | hmem
        · exact Or.inr rfl
        · exact Or.inl ((List.takeWhile_sublist _).subset hmem)
      · intro l hl
        exact (List.dropWhile_sublist _).subset hl
    · rcases hsU : splitAtVersion "Unreleased" doc with _ | ⟨⟨preU, hdrU, tailU⟩⟩
      · have hv : ∃ v, version = some v ∧ version.getD "Unreleased" = v := by
          rcases version with _ | v
          · exact absurd rfl hlab
          · exact ⟨v, rfl, rfl⟩
        obtain ⟨v, hveq, hget⟩ := hv
        refine ⟨by simp, ?_, ?_, ?_, Or.inr (Or.inr ⟨v, hveq, ?_⟩)⟩
        · intro l hl
          rcases List.mem_cons.mp hl with rfl | hmem
          · exact Or.inr rfl
          · exact Or.inl ((List.takeWhile_sublist _).subset hmem)
        · intro l hl
          exact (List.dropWhile_sublist _).subset hl
        · rw [hget]
          exact isVersionHeader_relHeader v _
        · rw [hget]
      · obtain ⟨hdocU, hpreU, hmU⟩ := splitAtVersion_eq hsU
        have hv : ∃ v, version = some v ∧ version.getD "Unreleased" = v := by
          rcases version with _ | v
          · exact absurd rfl hlab
          · exact ⟨v, rfl, rfl⟩
        obtain ⟨v, hveq, hget⟩ := hv
        refine ⟨?_, ?_, ?_, ?_, Or.inr (Or.inr ⟨v, hveq, ?_⟩)⟩
        · intro l hl
          rcases List.mem_append.mp hl with hm | hm
          · exact Or.inl (by rw [hdocU]; simp [hm])
          · rcases List.mem_cons.mp hm with rfl | hmem
            · exact Or.inl (by rw [hdocU]; simp)
            · rcases mem_padEnd hmem with h1 | h1
              · exact Or.inr h1
              · refine Or.inl (by
                  rw [hdocU]
                  have : l ∈ tailU := (List.takeWhile_sublist _).subset h1
                  simp [this])
        · intro l hl
          exact Or.inr (by simpa using hl)
        · intro l hl
          have : l ∈ tailU := (List.dropWhile_sublist _).subset hl
          rw [hdocU]
          simp [this]
        · rw [hget]
          exact isVersionHeader_relHeader v _
        · rw [hget]
  · obtain ⟨hdoc, hpre, hm⟩ := splitAtVersion_eq hsp
    refine ⟨?_, ?_, ?_, isVersionHeader_of_matches hm, Or.inl (by rw [hdoc]; simp)⟩
    · intro l hl
      exact Or.inl (by rw [hdoc]; simp [hl])
    · intro l hl
      have : l ∈ tail := (List.takeWhile_sublist _).subset hl
      rw [hdoc]
      simp [this]
    · intro l hl
      have : l ∈ tail := (List.dropWhile_sublist _).subset hl
      rw [hdoc]
      simp [this]

lemma addEntryCore_lineError {t : ChangeType} {msg : String} {version date slug : Option String}
    {today : String} {doc : List String}
    (hdoc : ∀ l ∈ doc, lineError l = false)
    (hdate : dateOK (date.getD today) = true)
    (hver : ∀ v, version = some v → ∀ ch ∈ v.data, ch ≠ ']') :
    ∀ l ∈ addEntryCore t msg version date slug today doc, lineError l = false := by
  obtain ⟨hpre, hbody, hrest, hvh, hhdr⟩ := resolveTarget_spec version date today doc
  have hhdrE : lineError (resolveTarget version date today doc).hdr = false := by
    rcases hhdr with hm | he | ⟨v, hv, he⟩
    · exact hdoc _ hm
    · rw [he]
      decide
    · rw [he]
      exact lineError_relHeader (hver v hv) hdate
  have hdoc2 : ∀ l ∈ mutate t msg version date today doc, lineError l = false := by
    intro l hl
    unfold mutate at hl
    rcases List.mem_append.mp hl with hm | hm
    · rcases hpre l hm with h1 | h1
      · exact hdoc l h1
      · rw [h1]
        rfl
    · rcases List.mem_cons.mp hm with rfl | hmem
      · exact hhdrE
      · rcases List.mem_append.mp hmem with hm2 | hm2
        · rcases mem_addToBody hm2 with h1 | h1 | h1 | h1
          · rcases hbody l h1 with h2 | h2
            · exact hdoc l h2
            · rw [h2]
              rfl
          · rw [h1]
            rfl
          · rw [h1]
            exact lineError_subheader t
          · rw [h1]
            exact lineError_dash msg
        · exact hdoc l (hrest l hm2)
  intro l hl
  unfold addEntryCore at hl
  split_ifs at hl with hc
  · rcases mem_synthesize hl with hm | hm | hm
    · exact hdoc2 l hm
    · rw [hm]
      rfl
    · exact hm.2.2
  · exact hdoc2 l hl

lemma hdr_mem_mutate (t : ChangeType) (msg : String) (version date : Option String)
    (today : String) (doc : List String) :
    (resolveTarget version date today doc).hdr ∈ mutate t msg version date today doc := by
  unfold mutate
  exact List.mem_append.mpr (Or.inr (by simp))

lemma addEntryCore_ne_nil (t : ChangeType) (msg : String) (version date slug : Option String)
    (today : String) (doc : List String) :
    addEntryCore t msg version date slug today doc ≠ [] := by
  have hvh := (resolveTarget_spec version date today doc).2.2.2.1
  have hmem := hdr_mem_mutate t msg version date today doc
  unfold addEntryCore
  split_ifs with hc
  · exact List.ne_nil_of_mem (synthesize_mem_of_not_link hmem (isLinkLine_false_of_vh hvh))
  · exact List.ne_nil_of_mem hmem

lemma addEntry_ok_cases {ty msg : String} {version date slug : Option String}
    {today : String} {doc d : List String}
    (h : addEntry ty msg version date slug today doc = Except.ok d) :
    ∃ t, parseChangeType ty = some t ∧ d = addEntryCore t msg version date slug today doc ∧
      ∀ d0, date = some d0 → dateOK d0 = true := by
  unfold addEntry at h
  rcases hpt : parseChangeType ty with _ | t
  · rw [hpt] at h
    exact Except.noConfusion h
  · rw [hpt] at h
    rcases hdt : date with _ | d0
    · rw [hdt] at h
      exact ⟨t, rfl, (Except.ok.inj h).symm, by simp⟩
    · rw [hdt] at h
      have h2 : (if dateOK d0 = true then
          Except.ok (addEntryCore t msg version (some d0) slug today doc)
        else (Except.error "invalid date" : Except String (List String))) = Except.ok d := h
      split_ifs at h2 with hok
      refine ⟨t, rfl, (Except.ok.inj h2).symm, ?_⟩
      intro x hx
      injection hx with hx2
      rw [← hx2]
      exact hok

lemma addEntry_isOk_of_good {ty msg : String} {version date slug : Option String}
    {today : String} {doc : List String}
    (ht : (parseChangeType ty).isSome = true)
    (hd : ∀ d0, date = some d0 → dateOK d0 = true) :
    ∃ d, addEntry ty msg version date slug today doc = Except.ok d := by
  unfold addEntry
  rcases hpt : parseChangeType ty with _ | t
  · rw [hpt] at ht
    exact Bool.noConfusion ht
  · rcases hdt : date with _ | d0
    · exact ⟨_, rfl⟩
    · refine ⟨addEntryCore t msg version (some d0) slug today doc, ?_⟩
      show (if dateOK d0 = true then
          Except.ok (addEntryCore t msg version (some d0) slug today doc)
        else (Except.error "invalid date" : Except String (List String))) =
        Except.ok (addEntryCore t msg version (some d0) slug today doc)
      rw [if_pos (hd d0 hdt)]

lemma applyCall_lineError {today : String} {doc : List String} {c : Call}
    (hdoc : ∀ l ∈ doc, lineError l = false) (htoday : dateOK today = true)
    (hver : ∀ v, c.version = some v → ∀ ch ∈ v.data, ch ≠ ']') :
    ∀ l ∈ applyCall today doc c, lineError l = false := by
  unfold applyCall
  rcases hae : addEntry c.ty c.msg c.version c.date c.slug today doc with e | d
  · exact hdoc
  · obtain ⟨t, hpt, rfl, hdates⟩ := addEntry_ok_cases hae
    have hgd : dateOK (c.date.getD today) = true := by
      rcases hdt : c.date with _ | d0
      · simpa using htoday
      · simpa using hdates d0 hdt
    exact addEntryCore_lineError hdoc hgd hver

lemma applyCall_ne_nil_of_ne {today : String} {doc : List String} {c : Call}
    (hne : doc ≠ []) : applyCall today doc c ≠ [] := by
  unfold applyCall
  rcases hae : addEntry c.ty c.msg c.version c.date c.slug today doc with e | d
  · exact hne
  · obtain ⟨t, hpt, rfl, _⟩ := addEntry_ok_cases hae
    exact addEntryCore_ne_nil t c.msg c.version c.date c.slug today doc

lemma applyCall_ne_nil_of_good {today : String} {doc : List String} {c : Call}
    (ht : (parseChangeType c.ty).isSome = true)
    (hd : ∀ d0, c.date = some d0 → dateOK d0 = true) :
    applyCall today doc c ≠ [] := by
  obtain ⟨d, hae⟩ := @addEntry_isOk_of_good c.ty c.msg c.version c.date c.slug today doc ht hd
  unfold applyCall
  rw [hae]
  obtain ⟨t, hpt, rfl, _⟩ := addEntry_ok_cases hae
  exact addEntryCore_ne_nil t c.msg c.version c.date c.slug today doc

lemma applyCalls_lineError {today : String} (htoday : dateOK today = true) :
    ∀ (calls : List Call) (doc : List String),
    (∀ l ∈ doc, lineError l = false) →
    (∀ c ∈ calls, ∀ v, c.version = some v → ∀ ch ∈ v.data, ch ≠ ']') →
    ∀ l ∈ applyCalls today calls doc, lineError l = false := by
  intro calls
  induction calls with
  | nil =>
    intro doc hdoc _
    exact hdoc
  | cons c cs ih =>
    intro doc hdoc hg
    show ∀ l ∈ applyCalls today cs (applyCall today doc c), lineError l = false
    exact ih _ (applyCall_lineError hdoc htoday (hg c (by simp)))
      (fun x hx => hg x (by simp [hx]))

lemma applyCalls_ne_nil (today : String) :
    ∀ (calls : List Call) (doc : List String), doc ≠ [] →
    applyCalls today calls doc ≠ [] := by
  intro calls
  induction calls with
  | nil =>
    intro doc hdoc
    exact hdoc
  | cons c cs ih =>
    intro doc hdoc
    show applyCalls today cs (applyCall today doc c) ≠ []
    exact ih _ (applyCall_ne_nil_of_ne hdoc)

/-- C6: a document produced purely by a (non-empty) sequence of
successful `addEntry` calls, starting from the empty document, validates
with an empty error list; validity is defined as zero errors and the
warnings list never affects it. -/
theorem round_trip_zero_errors (today : String) (calls : List Call)
    (htoday : dateOK today = true) (hne : calls ≠ [])
    (hgood : ∀ c ∈ calls, (parseChangeType c.ty).isSome = true ∧
      (∀ d0, c.date = some d0 → dateOK d0 = true) ∧
      (∀ v, c.version = some v → ∀ ch ∈ v.data, ch ≠ ']')) :
    (validate (applyCalls today calls [])).errors = [] ∧
    isValidDoc (applyCalls today calls []) = true := by
  rcases calls with _ | ⟨c, cs⟩
  · exact absurd rfl hne
  have hres : applyCalls today (c :: cs) [] = applyCalls today cs (applyCall today [] c) := rfl
  have hresne : applyCalls today (c :: cs) [] ≠ [] := by
    rw [hres]
    exact applyCalls_ne_nil today cs _
      (applyCall_ne_nil_of_good (hgood c (by simp)).1 (hgood c (by simp)).2.1)
  have herr : ∀ l ∈ applyCalls today (c :: cs) [], lineError l = false :=
    applyCalls_lineError htoday (c :: cs) [] (by simp)
      (fun x hx => (hgood x hx).2.2)
  have herrs : (validate (applyCalls today (c :: cs) [])).errors = [] := by
    unfold validate
    rw [List.isEmpty_eq_false.mpr hresne]
    rw [List.filter_eq_nil_iff.mpr (fun a ha => by rw [herr a ha]; simp)]
    rfl
  exact ⟨herrs, by unfold isValidDoc; rw [herrs]; rfl⟩

/-- Witness for `round_trip_zero_errors` at a concrete call sequence. -/
theorem round_trip_zero_errors_witness :
    dateOK "2026-02-10" = true ∧
    (validate (applyCalls "2026-02-10"
      [⟨"Added", "x", none, none, none⟩,
       ⟨"Fixed", "y", some "1.0.0", some "2026-02-01", some "acme/widget"⟩] [])).errors = [] :=
  ⟨by decide,
    (round_trip_zero_errors "2026-02-10"
      [⟨"Added", "x", none, none, none⟩,
       ⟨"Fixed", "y", some "1.0.0", some "2026-02-01", some "acme/widget"⟩]
      (by decide) (by simp)
      (by
        intro c hc
        rcases List.mem_cons.mp hc with rfl | hc2
        · exact ⟨by decide, by simp, by simp⟩
        · rcases List.mem_cons.mp hc2 with rfl | hc3
          swap
          · exact absurd hc3 (by simp)
          refine ⟨by decide, ?_, ?_⟩
          · intro d0 hd0
            injection hd0 with h2
            rw [← h2]
            decide
          · intro v hv ch hch
            injection hv with h2
            rw [← h2] at hch
            intro hbad
            rw [hbad] at hch
            revert hch
            decide)).1⟩

/-- C6 (counterexample): the round-trip claim fails as stated — from the
empty document, the single call `addEntry("Added", "m", version = "a] - b")`
succeeds (the type is valid and no explicit date is supplied, so no
validation guard fires), yet the header it writes,
`## [a] - b] - 2026-02-10`, is malformed (the text after the first `] - `
is not a date) and the validator reports an error, so the produced
document does not validate with an empty error list. -/
theorem round_trip_counterexample :
    addEntry "Added" "m" (some "a] - b") none none "2026-02-10" [] =
      Except.ok (applyCalls "2026-02-10"
        [⟨"Added", "m", some "a] - b", none, none⟩] []) ∧
    (validate (applyCalls "2026-02-10"
      [⟨"Added", "m", some "a] - b", none, none⟩] [])).errors ≠ [] ∧
    isValidDoc (applyCalls "2026-02-10"
      [⟨"Added", "m", some "a] - b", none, none⟩] []) = false :=
  ⟨rfl, by decide, by decide⟩

lemma labelOf_some_of_matches {lbl l : String} (hm : matchesVersion lbl l = true)
    (hlb : ∀ ch ∈ lbl.data, ch ≠ ']') : labelOf l = some lbl := by
  have hdrop : ∀ rest : List Char,
      l.data = '#' :: '#' :: ' ' :: '[' :: (lbl.data ++ ']' :: rest) → labelOf l = some lbl := by
    intro rest hdata
    unfold labelOf
    rw [if_pos]
    · congr 1
      rw [String.ext_iff]
      show (l.data.drop 4).takeWhile (fun c => decide (c ≠ ']')) = lbl.data
      rw [hdata]
      show (lbl.data ++ ']' :: rest).takeWhile (fun c => decide (c ≠ ']')) = lbl.data
      exact takeWhile_append_stop rest (fun x hx => by simpa using hlb x hx) (by simp)
    · rw [hdata]
      simp [List.isPrefixOf]
  rcases Bool.or_eq_true_iff.mp hm with he | hp
  · have hle : l = "## [" ++ lbl ++ "]" := decide_eq_true_eq.mp he
    refine hdrop [] ?_
    rw [hle]
    show ("## [".data ++ lbl.data ++ "]".data) = _
    simp
  · obtain ⟨rest, hrest⟩ := List.isPrefixOf_iff_prefix.mp hp
    refine hdrop (' ' :: rest) ?_
    rw [← hrest]
    show (("## [" ++ lbl ++ "] ").data ++ rest) = _
    rw [show ("## [" ++ lbl ++ "] ").data = "## [".data ++ lbl.data ++ "] ".data from rfl]
    simp

lemma matchesVersion_relHeader (v d : String) :
    matchesVersion v ("## [" ++ v ++ "] - " ++ d) = true := by
  unfold matchesVersion
  rw [Bool.or_eq_true]
  right
  rw [List.isPrefixOf_iff_prefix]
  refine ⟨"- ".data ++ d.data, ?_⟩
  show ("## [" ++ v ++ "] ").data ++ ("- ".data ++ d.data) = ("## [" ++ v ++ "] - " ++ d).data
  rw [show ("## [" ++ v ++ "] ").data = "## [".data ++ v.data ++ "] ".data from rfl,
    show ("## [" ++ v ++ "] - " ++ d).data = "## [".data ++ v.data ++ "] - ".data ++ d.data
      from rfl]
  simp

lemma labelOf_relHeader {v : String} (hv : ∀ ch ∈ v.data, ch ≠ ']') (d : String) :
    labelOf ("## [" ++ v ++ "] - " ++ d) = some v :=
  labelOf_some_of_matches (matchesVersion_relHeader v d) hv

lemma versionLabels_split {label : String} {doc pre tail : List String} {hdr : String}
    (hsp : splitAtVersion label doc = some (pre, hdr, tail))
    (hlb : ∀ ch ∈ label.data, ch ≠ ']') :
    versionLabels doc = versionLabels pre ++ label :: versionLabels tail := by
  obtain ⟨hdoc, _, hm⟩ := splitAtVersion_eq hsp
  rw [hdoc]
  unfold versionLabels
  rw [List.filterMap_append, List.filterMap_cons, labelOf_some_of_matches hm hlb]

lemma splitAtVersion_none_of_not_mem {v : String} (hv : ∀ ch ∈ v.data, ch ≠ ']') :
    ∀ {doc : List String}, v ∉ versionLabels doc → splitAtVersion v doc = none := by
  intro doc
  induction doc with
  | nil => intro _; rfl
  | cons l ls ih =>
    intro h
    unfold splitAtVersion
    rw [if_neg, ih]
    · intro hmem
      apply h
      unfold versionLabels at *
      rw [List.filterMap_cons]
      rcases hlo : labelOf l with _ | s
      · exact hmem
      · exact List.mem_cons_of_mem s hmem
    · intro hm
      apply h
      unfold versionLabels
      rw [List.filterMap_cons, labelOf_some_of_matches hm hv]
      simp

lemma splitAtVersion_isSome_of_mem {label : String} :
    ∀ {doc : List String} {l : String}, l ∈ doc → matchesVersion label l = true →
    (splitAtVersion label doc).isSome = true := by
  intro doc
  induction doc with
  | nil => intro l hl _; cases hl
  | cons x ls ih =>
    intro l hl hm
    unfold splitAtVersion
    by_cases hx : matchesVersion label x = true
    · rw [if_pos hx]
      rfl
    · rw [if_neg hx]
      rcases List.mem_cons.mp hl with rfl | hmem
      · exact absurd hm hx
      · have := ih hmem hm
        rcases hs : splitAtVersion label ls with _ | p
        · rw [hs] at this
          exact Bool.noConfusion this
        · rcases p with ⟨a, b, c⟩
          rfl

lemma isVersionHeader_false_of_link {l : String} (h : isLinkLine l = true) :
    isVersionHeader l = false := by
  unfold isLinkLine at h
  rcases hl : l.data with _ | ⟨c, rest⟩
  · rw [hl] at h
    exact Bool.noConfusion h
  · rw [hl] at h
    have hc : ('[' == c) = true := by
      by_contra hcc
      rw [Bool.not_eq_true] at hcc
      have hfalse : List.isPrefixOf "[".data (c :: rest) = false := by
        show (('[' == c) && List.isPrefixOf [] rest) = false
        rw [hcc]
        rfl
      rw [hfalse] at h
      exact Bool.noConfusion h
    obtain rfl : c = '[' := (beq_iff_eq.mp hc).symm
    unfold isVersionHeader
    rw [hl]
    rfl

lemma versionLabels_nil_of_noVH {ls : List String}
    (h : ∀ l ∈ ls, isVersionHeader l = false) : versionLabels ls = [] := by
  unfold versionLabels
  exact List.filterMap_eq_nil_iff.mpr (fun l hl => labelOf_none_of_not_vh (h l hl))

lemma versionLabels_padEnd (ls : List String) :
    versionLabels (padEnd ls) = versionLabels ls := by
  unfold padEnd
  split_ifs with h
  · rfl
  · unfold versionLabels
    rw [List.filterMap_append]
    simp [labelOf_none_of_not_vh (l := "") rfl]

lemma versionLabels_synthesize (s : Option String) (doc : List String) :
    versionLabels (synthesize s doc) = versionLabels doc := by
  unfold synthesize
  rcases resolveSlug s doc with _ | slug
  · rfl
  · unfold replaceLinkBlock
    split_ifs with h
    · have hdoc : doc = doc.takeWhile (fun l => !isLinkLine l) ++
          ((doc.dropWhile (fun l => !isLinkLine l)).takeWhile isLinkLine ++
            (doc.dropWhile (fun l => !isLinkLine l)).dropWhile isLinkLine) := by
        rw [List.takeWhile_append_dropWhile, List.takeWhile_append_dropWhile]
      have hrun : versionLabels
          ((doc.dropWhile (fun l => !isLinkLine l)).takeWhile isLinkLine) = [] :=
        versionLabels_nil_of_noVH (fun l hl =>
          isVersionHeader_false_of_link (List.mem_takeWhile_imp hl))
      have hnb : versionLabels (linkBlock slug (hasUnreleasedHeader doc)
          (releaseLabels doc)) = [] :=
        versionLabels_nil_of_noVH (fun l hl => (linkBlock_mem hl).1)
      conv_rhs => rw [hdoc]
      unfold versionLabels at hrun hnb ⊢
      simp only [List.filterMap_append, hrun, hnb]
      simp
    · have hnb : versionLabels (linkBlock slug (hasUnreleasedHeader doc)
          (releaseLabels doc)) = [] :=
        versionLabels_nil_of_noVH (fun l hl => (linkBlock_mem hl).1)
      unfold versionLabels at hnb ⊢
      simp only [List.filterMap_append, hnb]
      simp [List.filterMap_cons, labelOf_none_of_not_vh (l := "") rfl]

lemma resolveTarget_body_noVH (version date : Option String) (today : String)
    (doc : List String) :
    ∀ l ∈ (resolveTarget version date today doc).body, isVersionHeader l = false := by
  unfold resolveTarget
  rcases hsp : splitAtVersion (version.getD "Unreleased") doc with _ | ⟨⟨pre, hdr, tail⟩⟩
  · split_ifs with hlab hempty
    · intro l hl
      simp at hl
    · intro l hl
      rcases List.mem_cons.mp hl with rfl | hmem
      · rfl
      · simpa using List.mem_takeWhile_imp hmem
    · rcases hsU : splitAtVersion "Unreleased" doc with _ | ⟨⟨preU, hdrU, tailU⟩⟩
      · intro l hl
        rcases List.mem_cons.mp hl with rfl | hmem
        · rfl
        · simpa using List.mem_takeWhile_imp hmem
      · intro l hl
        rcases List.mem_cons.mp hl with rfl | hmem
        · rfl
        · simp at hmem
  · intro l hl
    simpa using List.mem_takeWhile_imp hl

lemma addToBody_noVH {t : ChangeType} {msg : String} {body : List String}
    (hb : ∀ l ∈ body, isVersionHeader l = false) :
    ∀ l ∈ addToBody t msg body, isVersionHeader l = false := by
  intro l hl
  rcases mem_addToBody hl with h1 | h1 | h1 | h1
  · exact hb l h1
  · rw [h1]
    rfl
  · rw [h1]
    exact isVersionHeader_subheader t
  · rw [h1]
    exact isVersionHeader_dash msg

lemma versionLabels_release_create (t : ChangeType) (msg : String) {v : String}
    (date slug : Option String) (today : String) {doc preU tailU : List String}
    {hdrU : String}
    (hvne : v ≠ "Unreleased") (hv : ∀ ch ∈ v.data, ch ≠ ']')
    (hnone : splitAtVersion v doc = none)
    (hU : splitAtVersion "Unreleased" doc = some (preU, hdrU, tailU)) :
    versionLabels (addEntryCore t msg (some v) date slug today doc) =
      versionLabels preU ++ "Unreleased" :: v :: versionLabels tailU := by
  have hres : resolveTarget (some v) date today doc =
      ⟨preU ++ hdrU :: padEnd (tailU.takeWhile (fun l => !isVersionHeader l)),
        "## [" ++ v ++ "] - " ++ date.getD today,
        [""], tailU.dropWhile (fun l => !isVersionHeader l), false⟩ := by
    unfold resolveTarget
    simp only [Option.getD_some, hnone]
    rw [if_neg hvne]
    simp only [hU]
  have hbody1 : ∀ l ∈ ([""] : List String), isVersionHeader l = false := by
    intro l hl
    rcases List.mem_cons.mp hl with rfl | hmem
    · rfl
    · simp at hmem
  have hAB : versionLabels (addToBody t msg [""]) = [] :=
    versionLabels_nil_of_noVH (addToBody_noVH hbody1)
  have hbodyU : versionLabels (tailU.takeWhile (fun l => !isVersionHeader l)) = [] :=
    versionLabels_nil_of_noVH (fun l hl => by simpa using List.mem_takeWhile_imp hl)
  have htailU : versionLabels tailU =
      versionLabels (tailU.dropWhile (fun l => !isVersionHeader l)) := by
    conv_lhs => rw [← List.takeWhile_append_dropWhile
      (p := fun l => !isVersionHeader l) (l := tailU)]
    unfold versionLabels at hbodyU ⊢
    rw [List.filterMap_append, hbodyU]
    simp
  have hlabU : labelOf hdrU = some "Unreleased" :=
    labelOf_some_of_matches (splitAtVersion_eq hU).2.2 (by decide)
  unfold addEntryCore
  rw [if_pos (Or.inr (show (some v).getD "Unreleased" ≠ "Unreleased" from hvne))]
  rw [versionLabels_synthesize]
  unfold mutate
  rw [hres]
  show versionLabels
      ((preU ++ hdrU :: padEnd (tailU.takeWhile (fun l => !isVersionHeader l))) ++
        ("## [" ++ v ++ "] - " ++ date.getD today) ::
          (addToBody t msg [""] ++ tailU.dropWhile (fun l => !isVersionHeader l))) = _
  unfold versionLabels at hAB hbodyU ⊢
  rw [List.filterMap_append, List.filterMap_append, List.filterMap_cons, hlabU,
    List.filterMap_cons, labelOf_relHeader hv, List.filterMap_append, hAB]
  rw [show List.filterMap labelOf (padEnd (tailU.takeWhile (fun l => !isVersionHeader l))) =
      List.filterMap labelOf (tailU.takeWhile (fun l => !isVersionHeader l)) from
    versionLabels_padEnd _, hbodyU]
  unfold versionLabels at htailU
  rw [← htailU]
  simp

lemma append_cons_eq_one {α} {lp lt : List α} {x a : α}
    (h : lp ++ x :: lt = [a]) : lp = [] ∧ x = a ∧ lt = [] := by
  cases lp with
  | nil =>
    simp only [List.nil_append] at h
    injection h with h1 h2
    exact ⟨rfl, h1, h2⟩
  | cons p ps =>
    simp only [List.cons_append] at h
    injection h with h1 h2
    exact absurd h2 (by simp)

lemma append_cons_eq_two {α} {lp lt : List α} {x a b : α}
    (h : lp ++ x :: lt = [a, b]) (hxb : x ≠ b) : lp = [] ∧ x = a ∧ lt = [b] := by
  cases lp with
  | nil =>
    simp only [List.nil_append] at h
    injection h with h1 h2
    exact ⟨rfl, h1, h2⟩
  | cons p ps =>
    simp only [List.cons_append] at h
    injection h with h1 h2
    obtain ⟨h3, hx, h4⟩ := append_cons_eq_one h2
    exact absurd hx hxb

lemma pre_mem_mutate (t : ChangeType) (msg : String) (version date : Option String)
    (today : String) (doc : List String) {x : String}
    (hx : x ∈ (resolveTarget version date today doc).pre) :
    x ∈ mutate t msg version date today doc := by
  unfold mutate
  exact List.mem_append.mpr (Or.inl hx)

lemma hdrU_mem_addEntryCore_release (t : ChangeType) (msg : String) {v : String}
    (date slug : Option String) (today : String) {doc preU tailU : List String}
    {hdrU : String}
    (hvne : v ≠ "Unreleased")
    (hnone : splitAtVersion v doc = none)
    (hU : splitAtVersion "Unreleased" doc = some (preU, hdrU, tailU)) :
    hdrU ∈ addEntryCore t msg (some v) date slug today doc := by
  have hres : resolveTarget (some v) date today doc =
      ⟨preU ++ hdrU :: padEnd (tailU.takeWhile (fun l => !isVersionHeader l)),
        "## [" ++ v ++ "] - " ++ date.getD today,
        [""], tailU.dropWhile (fun l => !isVersionHeader l), false⟩ := by
    unfold resolveTarget
    simp only [Option.getD_some, hnone]
    rw [if_neg hvne]
    simp only [hU]
  have hpre : hdrU ∈ (resolveTarget (some v) date today doc).pre := by
    rw [hres]
    exact List.mem_append.mpr (Or.inr (by simp))
  have hmut : hdrU ∈ mutate t msg (some v) date today doc :=
    pre_mem_mutate t msg (some v) date today doc hpre
  have hvh : isVersionHeader hdrU = true :=
    isVersionHeader_of_matches (splitAtVersion_eq hU).2.2
  unfold addEntryCore
  rw [if_pos (Or.inr (show (some v).getD "Unreleased" ≠ "Unreleased" from hvne))]
  exact synthesize_mem_of_not_link hmut (isLinkLine_false_of_vh hvh)

/-- C5 (amended): starting from a document whose only version header is
`Unreleased`, calling `addEntry` with version `2.0.0` and then with version
`1.9.0` yields version headers in the order `Unreleased, 1.9.0, 2.0.0`: each
newly created release section is inserted directly below the `Unreleased`
block and directly above the previously existing releases, so the *later*
call's version sits closest to `Unreleased` — not the order
`Unreleased, 2.0.0, 1.9.0` stated by the claim. -/
theorem release_placement_amended (t1 t2 : ChangeType) (m1 m2 : String)
    (d1 d2 s1 s2 : Option String) (today : String) (doc : List String)
    (hU : (splitAtVersion "Unreleased" doc).isSome = true)
    (hlab : versionLabels doc = ["Unreleased"]) :
    versionLabels
      (addEntryCore t2 m2 (some "1.9.0") d2 s2 today
        (addEntryCore t1 m1 (some "2.0.0") d1 s1 today doc)) =
      ["Unreleased", "1.9.0", "2.0.0"] := by
  obtain ⟨trip, hUeq⟩ := Option.isSome_iff_exists.mp hU
  obtain ⟨preU, hdrU, tailU⟩ := trip
  have hv2 : ∀ ch ∈ ("2.0.0" : String).data, ch ≠ ']' := by decide
  have hv19 : ∀ ch ∈ ("1.9.0" : String).data, ch ≠ ']' := by decide
  have hvU : ∀ ch ∈ ("Unreleased" : String).data, ch ≠ ']' := by decide
  have hnone2 : splitAtVersion "2.0.0" doc = none :=
    splitAtVersion_none_of_not_mem hv2 (by rw [hlab]; decide)
  have hsplit := versionLabels_split hUeq hvU
  rw [hlab] at hsplit
  obtain ⟨hpre0, hne0, htail0⟩ := append_cons_eq_one hsplit.symm
  have h1 : versionLabels (addEntryCore t1 m1 (some "2.0.0") d1 s1 today doc) =
      versionLabels preU ++ "Unreleased" :: "2.0.0" :: versionLabels tailU :=
    versionLabels_release_create t1 m1 d1 s1 today (by decide) hv2 hnone2 hUeq
  rw [hpre0, htail0] at h1
  simp only [List.nil_append] at h1
  have hmem : hdrU ∈ addEntryCore t1 m1 (some "2.0.0") d1 s1 today doc :=
    hdrU_mem_addEntryCore_release t1 m1 d1 s1 today (by decide) hnone2 hUeq
  have hmatch : matchesVersion "Unreleased" hdrU = true := (splitAtVersion_eq hUeq).2.2
  have hU1 : (splitAtVersion "Unreleased"
      (addEntryCore t1 m1 (some "2.0.0") d1 s1 today doc)).isSome = true :=
    splitAtVersion_isSome_of_mem hmem hmatch
  obtain ⟨trip1, hU1eq⟩ := Option.isSome_iff_exists.mp hU1
  obtain ⟨preU1, hdrU1, tailU1⟩ := trip1
  have hsplit1 := versionLabels_split hU1eq hvU
  rw [h1] at hsplit1
  obtain ⟨hpre1, hne1, htail1⟩ :=
    append_cons_eq_two hsplit1.symm (show ("Unreleased" : String) ≠ "2.0.0" by decide)
  have hnone19 : splitAtVersion "1.9.0"
      (addEntryCore t1 m1 (some "2.0.0") d1 s1 today doc) = none :=
    splitAtVersion_none_of_not_mem hv19 (by rw [h1]; decide)
  have h2 := versionLabels_release_create t2 m2 d2 s2 today
    (show ("1.9.0" : String) ≠ "Unreleased" by decide) hv19 hnone19 hU1eq
  rw [hpre1, htail1] at h2
  simpa using h2

/-- C5 (counterexample): from the document consisting of the single line
`## [Unreleased]`, the call sequence `addEntry("Added", "a", version="2.0.0")`
then `addEntry("Added", "b", version="1.9.0")` produces version headers
`Unreleased, 1.9.0, 2.0.0`, which differs from the order
`Unreleased, 2.0.0, 1.9.0` stated by the claim: the second new release lands
directly below `Unreleased`, *above* the first one. -/
theorem release_placement_counterexample :
    versionLabels (applyCalls "2026-02-10"
      [⟨"Added", "a", some "2.0.0", none, none⟩,
       ⟨"Added", "b", some "1.9.0", none, none⟩] ["## [Unreleased]"]) =
      ["Unreleased", "1.9.0", "2.0.0"] ∧
    versionLabels (applyCalls "2026-02-10"
      [⟨"Added", "a", some "2.0.0", none, none⟩,
       ⟨"Added", "b", some "1.9.0", none, none⟩] ["## [Unreleased]"]) ≠
      ["Unreleased", "2.0.0", "1.9.0"] := by
  exact ⟨by decide, by decide⟩

/-- Witness for `release_placement_amended` at the one-line document
`## [Unreleased]`. -/
theorem release_placement_amended_witness :
    ((splitAtVersion "Unreleased" ["## [Unreleased]"]).isSome = true ∧
      versionLabels ["## [Unreleased]"] = ["Unreleased"]) ∧
    versionLabels
      (addEntryCore .added "b" (some "1.9.0") none none "2026-02-10"
        (addEntryCore .added "a" (some "2.0.0") none none "2026-02-10"
          ["## [Unreleased]"])) =
      ["Unreleased", "1.9.0", "2.0.0"] :=
  ⟨⟨by decide, by decide⟩,
    release_placement_amended .added .added "a" "b" none none none none "2026-02-10"
      ["## [Unreleased]"] (by decide) (by decide)⟩

lemma tc_cons (c : Chunk) (cs : List Chunk) :
    typesOfChunks (c :: cs) = (chunkType c).toList ++ typesOfChunks cs := by
  cases h : chunkType c <;> simp [typesOfChunks, List.filterMap_cons, h]

lemma typesOf_append (xs ys : List String) :
    typesOf (xs ++ ys) = typesOf xs ++ typesOf ys := by
  simp [typesOf, List.filterMap_append]

lemma typesOf_nil_of_noSub {ls : List String}
    (h : ∀ l ∈ ls, isSubHeader l = false) : typesOf ls = [] := by
  simp only [typesOf, List.filterMap_eq_nil_iff]
  exact fun l hl => subHeaderType_none_of_not_sub (h l hl)

lemma isSubHeader_bullet (msg : String) : isSubHeader ("- " ++ msg) = false := rfl

lemma padEnd_noSub {ls : List String} (h : ∀ l ∈ ls, isSubHeader l = false) :
    ∀ l ∈ padEnd ls, isSubHeader l = false := by
  intro l hl
  rcases mem_padEnd hl with rfl | hl2
  · rfl
  · exact h l hl2

lemma chunksR_noSub (body : List String) :
    (∀ l ∈ (chunksR body).1, isSubHeader l = false) ∧
    (∀ c ∈ (chunksR body).2, ∀ l ∈ c.2, isSubHeader l = false) := by
  induction body with
  | nil =>
    exact ⟨fun l hl => absurd hl (by simp [chunksR]),
      fun c hc => absurd hc (by simp [chunksR])⟩
  | cons l ls ih =>
    cases hl : isSubHeader l with
    | true =>
      rw [chunksR_cons_sub ls hl]
      refine ⟨fun x hx => absurd hx (List.not_mem_nil x), ?_⟩
      intro c hc
      rcases List.mem_cons.mp hc with rfl | hc2
      · exact fun x hx => ih.1 x hx
      · exact ih.2 c hc2
    | false =>
      rw [chunksR_cons_nosub ls hl]
      refine ⟨?_, ih.2⟩
      intro x hx
      rcases List.mem_cons.mp hx with rfl | hx2
      · exact hl
      · exact ih.1 x hx2

lemma typesOf_joinChunks : ∀ {cs : List Chunk},
    (∀ c ∈ cs, ∀ l ∈ c.2, isSubHeader l = false) →
    typesOf (joinChunks cs) = typesOfChunks cs := by
  intro cs
  induction cs with
  | nil => intro _; rfl
  | cons c cs ih =>
    intro h
    have hjc : joinChunks (c :: cs) = c.1 :: (c.2 ++ joinChunks cs) := rfl
    rw [hjc, tc_cons]
    have hc2 : typesOf c.2 = [] := typesOf_nil_of_noSub (h c (by simp))
    have hct : chunkType c = subHeaderType c.1 := rfl
    have hcs : ∀ c' ∈ cs, ∀ l ∈ c'.2, isSubHeader l = false :=
      fun c' hc' => h c' (List.mem_cons_of_mem _ hc')
    cases hs : subHeaderType c.1 with
    | none =>
      have l1 : typesOf (c.1 :: (c.2 ++ joinChunks cs)) = typesOf (c.2 ++ joinChunks cs) := by
        simp [typesOf, List.filterMap_cons, hs]
      rw [l1, typesOf_append, hc2, ih hcs, hct, hs]
      simp
    | some u =>
      have l1 : typesOf (c.1 :: (c.2 ++ joinChunks cs)) =
          u :: typesOf (c.2 ++ joinChunks cs) := by
        simp [typesOf, List.filterMap_cons, hs]
      rw [l1, typesOf_append, hc2, ih hcs, hct, hs]
      simp

lemma typesOf_chunksR (body : List String) :
    typesOf body = typesOfChunks (chunksR body).2 := by
  conv_lhs => rw [← chunksR_join body]
  rw [typesOf_append, typesOf_nil_of_noSub (chunksR_noSub body).1,
    typesOf_joinChunks (chunksR_noSub body).2]
  simp

lemma tc_addItemTo (t : ChangeType) (msg : String) : ∀ cs : List Chunk,
    typesOfChunks (addItemTo t msg cs) = typesOfChunks cs := by
  intro cs
  induction cs with
  | nil => rfl
  | cons c cs ih =>
    show typesOfChunks
        (if chunkType c = some t then addItem msg c :: cs else c :: addItemTo t msg cs) = _
    split_ifs with hc
    · rw [tc_cons, tc_cons]
      rfl
    · rw [tc_cons, tc_cons, ih]

lemma addItemTo_noSub {t : ChangeType} {msg : String} : ∀ {cs : List Chunk},
    (∀ c ∈ cs, ∀ l ∈ c.2, isSubHeader l = false) →
    ∀ c ∈ addItemTo t msg cs, ∀ l ∈ c.2, isSubHeader l = false := by
  intro cs
  induction cs with
  | nil => intro _ c hc; exact absurd hc (List.not_mem_nil c)
  | cons c cs ih =>
    intro h c' hc'
    have hc'2 : c' ∈ (if chunkType c = some t then addItem msg c :: cs
        else c :: addItemTo t msg cs) := hc'
    split_ifs at hc'2 with hct
    · rcases List.mem_cons.mp hc'2 with rfl | h2
      · intro l hl
        rcases mem_insertItem hl with rfl | hl2
        · exact isSubHeader_bullet msg
        · exact h c (by simp) l hl2
      · exact h c' (List.mem_cons_of_mem _ h2)
    · rcases List.mem_cons.mp hc'2 with rfl | h2
      · exact h c' (by simp)
      · exact ih (fun c0 hc0 => h c0 (List.mem_cons_of_mem _ hc0)) c' h2

lemma newChunkEnd_noSub (t : ChangeType) (msg : String) :
    ∀ l ∈ (newChunkEnd t msg).2, isSubHeader l = false := by
  intro l hl
  rcases List.mem_cons.mp hl with rfl | hl2
  · rfl
  · rcases List.mem_cons.mp hl2 with rfl | hl3
    · exact isSubHeader_bullet msg
    · cases hl3

lemma newChunkMid_noSub (t : ChangeType) (msg : String) :
    ∀ l ∈ (newChunkMid t msg).2, isSubHeader l = false := by
  intro l hl
  rcases List.mem_cons.mp hl with rfl | hl2
  · rfl
  · rcases List.mem_cons.mp hl2 with rfl | hl3
    · exact isSubHeader_bullet msg
    · rcases List.mem_cons.mp hl3 with rfl | hl4
      · rfl
      · cases hl4

lemma insChunk_noSub {t : ChangeType} {msg : String} : ∀ (cs : List Chunk) (c : Chunk),
    (∀ c' ∈ c :: cs, ∀ l ∈ c'.2, isSubHeader l = false) →
    ∀ c' ∈ insChunk t msg (c :: cs), ∀ l ∈ c'.2, isSubHeader l = false := by
  intro cs
  induction cs with
  | nil =>
    intro c h c' hc'
    have hc'2 : c' ∈ [(c.1, padEnd c.2), newChunkEnd t msg] := hc'
    rcases List.mem_cons.mp hc'2 with rfl | h2
    · exact padEnd_noSub (h c (by simp))
    · rcases List.mem_cons.mp h2 with rfl | h3
      · exact newChunkEnd_noSub t msg
      · cases h3
  | cons c2 cs2 ih =>
    intro c h c' hc'
    have hc'2 : c' ∈ (if chunkHigher t c2 then
        (c.1, padEnd c.2) :: newChunkMid t msg :: c2 :: cs2
      else c :: insChunk t msg (c2 :: cs2)) := hc'
    split_ifs at hc'2 with hh
    · rcases List.mem_cons.mp hc'2 with rfl | h2
      · exact padEnd_noSub (h c (by simp))
      · rcases List.mem_cons.mp h2 with rfl | h3
        · exact newChunkMid_noSub t msg
        · exact h c' (List.mem_cons_of_mem _ h3)
    · rcases List.mem_cons.mp hc'2 with rfl | h2
      · exact h c' (by simp)
      · exact ih c2 (fun c0 hc0 => h c0 (List.mem_cons_of_mem _ hc0)) c' h2

lemma chunkHigher_some {t : ChangeType} {c : Chunk} {u : ChangeType}
    (h : chunkType c = some u) :
    chunkHigher t c = decide (t.priority < u.priority) := by
  unfold chunkHigher
  rw [h]

lemma chunkHigher_none {t : ChangeType} {c : Chunk} (h : chunkType c = none) :
    chunkHigher t c = false := by
  unfold chunkHigher
  rw [h]

lemma tc_insChunk (t : ChangeType) (msg : String) : ∀ (cs : List Chunk) (c : Chunk),
    typesOfChunks (insChunk t msg (c :: cs)) =
      (chunkType c).toList ++ insertT t (typesOfChunks cs) := by
  intro cs
  induction cs with
  | nil =>
    intro c
    show typesOfChunks [(c.1, padEnd c.2), newChunkEnd t msg] = _
    rw [tc_cons, tc_cons,
      show chunkType (c.1, padEnd c.2) = chunkType c from rfl,
      show chunkType (newChunkEnd t msg) = some t from subHeaderType_name t]
    rfl
  | cons c2 cs2 ih =>
    intro c
    show typesOfChunks (if chunkHigher t c2 then
        (c.1, padEnd c.2) :: newChunkMid t msg :: c2 :: cs2
      else c :: insChunk t msg (c2 :: cs2)) = _
    split_ifs with hh
    · obtain ⟨u2, hc2, hlt⟩ : ∃ u2, chunkType c2 = some u2 ∧ t.priority < u2.priority := by
        cases hc2 : chunkType c2 with
        | none => rw [chunkHigher_none hc2] at hh; exact Bool.noConfusion hh
        | some u =>
          rw [chunkHigher_some hc2] at hh
          exact ⟨u, rfl, of_decide_eq_true hh⟩
      rw [tc_cons, tc_cons, tc_cons,
        show chunkType (c.1, padEnd c.2) = chunkType c from rfl,
        show chunkType (newChunkMid t msg) = some t from subHeaderType_name t, hc2]
      simp only [Option.toList_some, List.singleton_append]
      rw [show insertT t (u2 :: typesOfChunks cs2) = t :: u2 :: typesOfChunks cs2 from by
        unfold insertT; rw [if_pos hlt]]
    · rw [tc_cons, ih c2, tc_cons]
      cases hc2 : chunkType c2 with
      | none => simp [hc2]
      | some u2 =>
        have hnlt : ¬ t.priority < u2.priority := by
          rw [chunkHigher_some hc2] at hh
          simpa using hh
        simp only [Option.toList_some, List.singleton_append]
        rw [show insertT t (u2 :: typesOfChunks cs2) = u2 :: insertT t (typesOfChunks cs2)
          from by
            show (if t.priority < u2.priority then t :: u2 :: typesOfChunks cs2
              else u2 :: insertT t (typesOfChunks cs2)) = _
            rw [if_neg hnlt]]

lemma hasChunk_iff (t : ChangeType) (cs : List Chunk) :
    hasChunk t cs = true ↔ t ∈ typesOfChunks cs := by
  unfold hasChunk typesOfChunks
  rw [List.any_eq_true]
  constructor
  · rintro ⟨c, hc, hct⟩
    exact List.mem_filterMap.mpr ⟨c, hc, of_decide_eq_true hct⟩
  · intro h
    obtain ⟨c, hc, hct⟩ := List.mem_filterMap.mp h
    exact ⟨c, hc, decide_eq_true hct⟩

lemma mem_insertT (t u : ChangeType) : ∀ l : List ChangeType,
    u ∈ insertT t l ↔ u = t ∨ u ∈ l := by
  intro l
  induction l with
  | nil =>
    show u ∈ [t] ↔ _
    simp
  | cons v vs ih =>
    show u ∈ (if t.priority < v.priority then t :: v :: vs else v :: insertT t vs) ↔ _
    split_ifs with h
    · simp only [List.mem_cons]
    · rw [List.mem_cons, ih, List.mem_cons]
      tauto

lemma priority_inj : ∀ a b : ChangeType, a.priority = b.priority → a = b := by
  intro a b
  cases a <;> cases b <;> decide

lemma pairwise_insertT {t : ChangeType} : ∀ {l : List ChangeType},
    l.Pairwise (fun a b => a.priority < b.priority) → t ∉ l →
    (insertT t l).Pairwise (fun a b => a.priority < b.priority) := by
  intro l
  induction l with
  | nil => intro _ _; exact List.pairwise_singleton _ _
  | cons v vs ih =>
    intro hp ht
    rw [List.pairwise_cons] at hp
    show List.Pairwise _ (if t.priority < v.priority then t :: v :: vs else v :: insertT t vs)
    split_ifs with h
    · rw [List.pairwise_cons]
      refine ⟨?_, List.pairwise_cons.mpr hp⟩
      intro b hb
      rcases List.mem_cons.mp hb with rfl | hb2
      · exact h
      · exact lt_trans h (hp.1 b hb2)
    · have hne : t ≠ v := fun he => ht (by rw [he]; exact List.mem_cons_self _ _)
      have hvt : v.priority < t.priority := by
        rcases Nat.lt_or_eq_of_le (Nat.not_lt.mp h) with h1 | h1
        · exact h1
        · exact absurd (priority_inj v t h1) (fun he => hne he.symm)
      rw [List.pairwise_cons]
      refine ⟨?_, ih hp.2 (fun hm => ht (List.mem_cons_of_mem _ hm))⟩
      intro b hb
      rcases (mem_insertT t b vs).mp hb with rfl | hb2
      · exact hvt
      · exact hp.1 b hb2

lemma sorted_eq_of_mem_iff : ∀ {l1 l2 : List ChangeType},
    l1.Pairwise (fun a b => a.priority < b.priority) →
    l2.Pairwise (fun a b => a.priority < b.priority) →
    (∀ u, u ∈ l1 ↔ u ∈ l2) → l1 = l2 := by
  intro l1
  induction l1 with
  | nil =>
    intro l2 _ _ hm
    cases l2 with
    | nil => rfl
    | cons b l2' => exact absurd ((hm b).mpr (List.mem_cons_self _ _)) (List.not_mem_nil b)
  | cons a l1' ih =>
    intro l2 h1 h2 hm
    cases l2 with
    | nil => exact absurd ((hm a).mp (List.mem_cons_self _ _)) (List.not_mem_nil a)
    | cons b l2' =>
      rw [List.pairwise_cons] at h1 h2
      have hab : a = b := by
        rcases List.mem_cons.mp ((hm a).mp (List.mem_cons_self _ _)) with h | ha2
        · exact h
        · rcases List.mem_cons.mp ((hm b).mpr (List.mem_cons_self _ _)) with h | hb2
          · exact h.symm
          · exact absurd (lt_trans (h2.1 a ha2) (h1.1 b hb2)) (lt_irrefl _)
      subst hab
      congr 1
      apply ih h1.2 h2.2
      intro u
      constructor
      · intro hu
        rcases List.mem_cons.mp ((hm u).mp (List.mem_cons_of_mem _ hu)) with rfl | h
        · exact absurd (h1.1 u hu) (lt_irrefl _)
        · exact h
      · intro hu
        rcases List.mem_cons.mp ((hm u).mpr (List.mem_cons_of_mem _ hu)) with rfl | h
        · exact absurd (h2.1 u hu) (lt_irrefl _)
        · exact h

lemma mem_all (u : ChangeType) : u ∈ ChangeType.all := by cases u <;> decide

lemma pairwise_all : ChangeType.all.Pairwise (fun a b => a.priority < b.priority) := by
  unfold ChangeType.all
  repeat rw [List.pairwise_cons]
  refine ⟨?_, ?_, ?_, ?_, ?_, ?_, List.Pairwise.nil⟩ <;> (intro b hb; fin_cases hb <;> decide)

lemma sorted_canonical {l : List ChangeType}
    (h : l.Pairwise (fun a b => a.priority < b.priority)) :
    l = ChangeType.all.filter (fun u => u ∈ l) := by
  apply sorted_eq_of_mem_iff h
  · exact List.Pairwise.sublist (List.filter_sublist _) pairwise_all
  · intro u
    simp [List.mem_filter, mem_all]

lemma typesOf_addToBody (t : ChangeType) (msg : String) (body : List String) :
    typesOf (addToBody t msg body) =
      if t ∈ typesOf body then typesOf body else insertT t (typesOf body) := by
  have hb := typesOf_chunksR body
  have hns := chunksR_noSub body
  by_cases hhas : hasChunk t (chunksR body).2 = true
  · have hmem : t ∈ typesOf body := by rw [hb]; exact (hasChunk_iff t _).mp hhas
    unfold addToBody
    rw [if_pos hhas, typesOf_append, typesOf_nil_of_noSub hns.1, List.nil_append,
      typesOf_joinChunks (addItemTo_noSub hns.2), tc_addItemTo, ← hb, if_pos hmem]
  · have hmem : t ∉ typesOf body := by
      rw [hb]
      exact fun hm => hhas ((hasChunk_iff t _).mpr hm)
    unfold addToBody
    rw [if_neg hhas, if_neg hmem]
    rcases hcs : (chunksR body).2 with _ | ⟨c, cs'⟩
    · have hb0 : typesOf body = [] := by rw [hb, hcs]; rfl
      show typesOf (padEnd (chunksR body).1 ++ joinChunks [newChunkEnd t msg]) =
        insertT t (typesOf body)
      rw [typesOf_append, typesOf_nil_of_noSub (padEnd_noSub hns.1), List.nil_append]
      have hj : typesOf (joinChunks [newChunkEnd t msg]) =
          typesOfChunks [newChunkEnd t msg] :=
        typesOf_joinChunks (by
          intro c hc
          rcases List.mem_cons.mp hc with rfl | h2
          · exact newChunkEnd_noSub t msg
          · cases h2)
      rw [hj, tc_cons, show chunkType (newChunkEnd t msg) = some t from subHeaderType_name t,
        hb0]
      rfl
    · have hb1 : typesOf body = typesOfChunks (c :: cs') := by rw [hb, hcs]
      have hnoSub2 : ∀ c' ∈ c :: cs', ∀ l ∈ c'.2, isSubHeader l = false :=
        fun c' h2 => hns.2 c' (by rw [hcs]; exact h2)
      show typesOf (if chunkHigher t c then
          padEnd (chunksR body).1 ++ joinChunks (newChunkMid t msg :: c :: cs')
        else (chunksR body).1 ++ joinChunks (insChunk t msg (c :: cs'))) = _
      split_ifs with hh
      · obtain ⟨u, hcu, hlt⟩ : ∃ u, chunkType c = some u ∧ t.priority < u.priority := by
          cases hcu : chunkType c with
          | none => rw [chunkHigher_none hcu] at hh; exact Bool.noConfusion hh
          | some u =>
            rw [chunkHigher_some hcu] at hh
            exact ⟨u, rfl, of_decide_eq_true hh⟩
        rw [typesOf_append, typesOf_nil_of_noSub (padEnd_noSub hns.1), List.nil_append]
        have hj : typesOf (joinChunks (newChunkMid t msg :: c :: cs')) =
            typesOfChunks (newChunkMid t msg :: c :: cs') :=
          typesOf_joinChunks (by
            intro c' hc'
            rcases List.mem_cons.mp hc' with rfl | h2
            · exact newChunkMid_noSub t msg
            · exact hnoSub2 c' h2)
        rw [hj, tc_cons, show chunkType (newChunkMid t msg) = some t from subHeaderType_name t,
          hb1, tc_cons, hcu]
        simp only [Option.toList_some, List.singleton_append]
        rw [show insertT t (u :: typesOfChunks cs') = t :: u :: typesOfChunks cs' from by
          unfold insertT; rw [if_pos hlt]]
      · rw [typesOf_append, typesOf_nil_of_noSub hns.1, List.nil_append,
          typesOf_joinChunks (insChunk_noSub cs' c hnoSub2), tc_insChunk, hb1, tc_cons]
        cases hcu : chunkType c with
        | none => simp [hcu]
        | some u =>
          have hnlt : ¬ t.priority < u.priority := by
            rw [chunkHigher_some hcu] at hh
            simpa using hh
          simp only [Option.toList_some, List.singleton_append]
          rw [show insertT t (u :: typesOfChunks cs') = u :: insertT t (typesOfChunks cs')
            from by
              show (if t.priority < u.priority then t :: u :: typesOfChunks cs'
                else u :: insertT t (typesOfChunks cs')) = _
              rw [if_neg hnlt]]

lemma splitAtVersion_of_parts {label hdr : String} {tl : List String} :
    ∀ {pre : List String}, (∀ l ∈ pre, matchesVersion label l = false) →
    matchesVersion label hdr = true →
    splitAtVersion label (pre ++ hdr :: tl) = some (pre, hdr, tl) := by
  intro pre
  induction pre with
  | nil =>
    intro _ hm
    show splitAtVersion label (hdr :: tl) = _
    unfold splitAtVersion
    rw [if_pos hm]
  | cons p ps ih =>
    intro hp hm
    show splitAtVersion label (p :: (ps ++ hdr :: tl)) = _
    unfold splitAtVersion
    rw [if_neg (by rw [hp p (by simp)]; exact Bool.noConfusion), ih
      (fun l hl => hp l (List.mem_cons_of_mem _ hl)) hm]

lemma subTypesUnder_of_parts {label hdr : String} {tl : List String} :
    ∀ {pre : List String}, (∀ l ∈ pre, matchesVersion label l = false) →
    matchesVersion label hdr = true →
    subTypesUnder label (pre ++ hdr :: tl) = typesUntilVH tl := by
  intro pre
  induction pre with
  | nil =>
    intro _ hm
    show subTypesUnder label (hdr :: tl) = _
    unfold subTypesUnder
    rw [if_pos hm]
  | cons p ps ih =>
    intro hp hm
    show subTypesUnder label (p :: (ps ++ hdr :: tl)) = _
    unfold subTypesUnder
    rw [if_neg (by rw [hp p (by simp)]; exact Bool.noConfusion)]
    exact ih (fun l hl => hp l (List.mem_cons_of_mem _ hl)) hm

lemma subHeaderType_none_of_vh {l : String} (h : isVersionHeader l = true) :
    subHeaderType l = none := by
  unfold subHeaderType
  split_ifs with h1 h2 h3 h4 h5 h6
  · rw [h1] at h; exact absurd h (by decide)
  · rw [h2] at h; exact absurd h (by decide)
  · rw [h3] at h; exact absurd h (by decide)
  · rw [h4] at h; exact absurd h (by decide)
  · rw [h5] at h; exact absurd h (by decide)
  · rw [h6] at h; exact absurd h (by decide)
  · rfl

lemma typesUntilVH_append_noVH {A : List String} (B : List String)
    (hA : ∀ l ∈ A, isVersionHeader l = false) :
    typesUntilVH (A ++ B) = typesOf A ++ typesUntilVH B := by
  induction A with
  | nil => rfl
  | cons l ls ih =>
    have hlv : isVersionHeader l = false := hA l (by simp)
    have h1 : typesUntilVH (l :: (ls ++ B)) = (if isVersionHeader l = true then []
        else match subHeaderType l with
        | some t => t :: typesUntilVH (ls ++ B)
        | none => typesUntilVH (ls ++ B)) := rfl
    show typesUntilVH (l :: (ls ++ B)) = _
    rw [h1, if_neg (by rw [hlv]; exact Bool.noConfusion)]
    cases hs : subHeaderType l with
    | none =>
      show typesUntilVH (ls ++ B) = typesOf (l :: ls) ++ typesUntilVH B
      rw [ih (fun x hx => hA x (List.mem_cons_of_mem _ hx)),
        show typesOf (l :: ls) = typesOf ls from by simp [typesOf, List.filterMap_cons, hs]]
    | some u =>
      show u :: typesUntilVH (ls ++ B) = typesOf (l :: ls) ++ typesUntilVH B
      rw [ih (fun x hx => hA x (List.mem_cons_of_mem _ hx)),
        show typesOf (l :: ls) = u :: typesOf ls from by
          simp [typesOf, List.filterMap_cons, hs]]
      rfl

lemma typesUntilVH_dropWhile (ls : List String) :
    typesUntilVH (ls.dropWhile (fun l => !isVersionHeader l)) = [] := by
  induction ls with
  | nil => rfl
  | cons l ls ih =>
    rw [List.dropWhile_cons]
    split_ifs with h
    · exact ih
    · have hvh : isVersionHeader l = true := by simpa using h
      unfold typesUntilVH
      rw [if_pos hvh]

lemma subTypes_split {label : String} {doc pre tail : List String} {hdr : String}
    (hU : splitAtVersion label doc = some (pre, hdr, tail)) :
    subTypesUnder label doc =
      typesOf (tail.takeWhile (fun l => !isVersionHeader l)) := by
  obtain ⟨hdoc, hpre, hm⟩ := splitAtVersion_eq hU
  rw [hdoc, subTypesUnder_of_parts hpre hm]
  conv_lhs => rw [← List.takeWhile_append_dropWhile
    (p := fun l => !isVersionHeader l) (l := tail)]
  rw [typesUntilVH_append_noVH _
    (fun l hl => by simpa using List.mem_takeWhile_imp hl),
    typesUntilVH_dropWhile]
  simp

lemma isSubHeader_false_of_link {l : String} (h : isLinkLine l = true) :
    isSubHeader l = false := by
  unfold isLinkLine at h
  rcases hl : l.data with _ | ⟨c, rest⟩
  · rw [hl] at h
    exact Bool.noConfusion h
  · rw [hl] at h
    have hc : ('[' == c) = true := by
      by_contra hcc
      rw [Bool.not_eq_true] at hcc
      have hfalse : List.isPrefixOf "[".data (c :: rest) = false := by
        show (('[' == c) && List.isPrefixOf [] rest) = false
        rw [hcc]
        rfl
      rw [hfalse] at h
      exact Bool.noConfusion h
    obtain rfl : c = '[' := (beq_iff_eq.mp hc).symm
    unfold isSubHeader
    rw [hl]
    rfl

lemma splitAtVersion_none_forall {label : String} : ∀ {doc : List String},
    splitAtVersion label doc = none → ∀ l ∈ doc, matchesVersion label l = false := by
  intro doc
  induction doc with
  | nil => intro _ l hl; cases hl
  | cons x ls ih =>
    intro h l hl
    have h2 : (if matchesVersion label x = true then some (([] : List String), x, ls)
        else match splitAtVersion label ls with
        | none => none
        | some (pre, hdr, tail) => some (x :: pre, hdr, tail)) = none := h
    split_ifs at h2 with hx
    rcases List.mem_cons.mp hl with rfl | hmem
    · cases hml : matchesVersion label l
      · rfl
      · exact absurd hml hx
    · rcases hs : splitAtVersion label ls with _ | p
      · exact ih hs l hmem
      · rcases p with ⟨a, b, c⟩
        rw [hs] at h2
        simp at h2

lemma subTypesUnder_nil_of_none {label : String} {doc : List String}
    (h : splitAtVersion label doc = none) : subTypesUnder label doc = [] := by
  have hf := splitAtVersion_none_forall h
  clear h
  induction doc with
  | nil => rfl
  | cons x ls ih =>
    unfold subTypesUnder
    rw [if_neg (by rw [hf x (by simp)]; exact Bool.noConfusion)]
    exact ih (fun l hl => hf l (List.mem_cons_of_mem _ hl))

lemma tu_congr : ∀ (A : List String) {B C : List String},
    typesUntilVH B = typesUntilVH C → typesUntilVH (A ++ B) = typesUntilVH (A ++ C) := by
  intro A
  induction A with
  | nil => intro B C h; exact h
  | cons a A2 ih =>
    intro B C h
    show typesUntilVH (a :: (A2 ++ B)) = typesUntilVH (a :: (A2 ++ C))
    have h1 : ∀ X : List String, typesUntilVH (a :: X) = (if isVersionHeader a = true then []
        else match subHeaderType a with
        | some t => t :: typesUntilVH X
        | none => typesUntilVH X) := fun X => rfl
    rw [h1, h1]
    by_cases hva : isVersionHeader a = true
    · rw [if_pos hva, if_pos hva]
    · rw [if_neg hva, if_neg hva]
      cases hs : subHeaderType a <;> rw [ih h]

lemma st_congr {label : String} : ∀ (A : List String) {B C : List String},
    typesUntilVH B = typesUntilVH C → subTypesUnder label B = subTypesUnder label C →
    subTypesUnder label (A ++ B) = subTypesUnder label (A ++ C) := by
  intro A
  induction A with
  | nil => intro B C _ h2; exact h2
  | cons a A2 ih =>
    intro B C h1 h2
    show subTypesUnder label (a :: (A2 ++ B)) = subTypesUnder label (a :: (A2 ++ C))
    unfold subTypesUnder
    by_cases hma : matchesVersion label a = true
    · rw [if_pos hma, if_pos hma]
      exact tu_congr A2 h1
    · rw [if_neg hma, if_neg hma]
      exact ih h1 h2

lemma tu_skip : ∀ {X : List String} (B : List String),
    (∀ l ∈ X, isVersionHeader l = false ∧ subHeaderType l = none) →
    typesUntilVH (X ++ B) = typesUntilVH B := by
  intro X
  induction X with
  | nil => intro B _; rfl
  | cons x xs ih =>
    intro B hX
    show typesUntilVH (x :: (xs ++ B)) = _
    have h1 : typesUntilVH (x :: (xs ++ B)) = (if isVersionHeader x = true then []
        else match subHeaderType x with
        | some t => t :: typesUntilVH (xs ++ B)
        | none => typesUntilVH (xs ++ B)) := rfl
    rw [h1, if_neg (by rw [(hX x (by simp)).1]; exact Bool.noConfusion), (hX x (by simp)).2]
    exact ih B (fun l hl => hX l (List.mem_cons_of_mem _ hl))

lemma st_skip {label : String} : ∀ {X : List String} (B : List String),
    (∀ l ∈ X, isVersionHeader l = false ∧ subHeaderType l = none) →
    subTypesUnder label (X ++ B) = subTypesUnder label B := by
  intro X
  induction X with
  | nil => intro B _; rfl
  | cons x xs ih =>
    intro B hX
    have h1 : subTypesUnder label (x :: (xs ++ B)) =
        (if matchesVersion label x = true then typesUntilVH (xs ++ B)
         else subTypesUnder label (xs ++ B)) := rfl
    show subTypesUnder label (x :: (xs ++ B)) = _
    rw [h1, if_neg (by
      rw [matchesVersion_false_of_not_vh (hX x (by simp)).1]
      exact Bool.noConfusion)]
    exact ih B (fun l hl => hX l (List.mem_cons_of_mem _ hl))

lemma tu_nil {X : List String}
    (hX : ∀ l ∈ X, isVersionHeader l = false ∧ subHeaderType l = none) :
    typesUntilVH X = [] := by
  have h := tu_skip [] hX
  simpa using h

lemma st_nil {label : String} {X : List String}
    (hX : ∀ l ∈ X, isVersionHeader l = false ∧ subHeaderType l = none) :
    subTypesUnder label X = [] := by
  have h := @st_skip label X [] hX
  simpa using h

lemma subTypes_synthesize {label : String} (s : Option String) (doc : List String) :
    subTypesUnder label (synthesize s doc) = subTypesUnder label doc := by
  unfold synthesize
  rcases resolveSlug s doc with _ | slug
  · rfl
  · show subTypesUnder label
      (replaceLinkBlock (linkBlock slug (hasUnreleasedHeader doc) (releaseLabels doc)) doc) =
      subTypesUnder label doc
    unfold replaceLinkBlock
    split_ifs with h
    · have hnb : ∀ l ∈ linkBlock slug (hasUnreleasedHeader doc) (releaseLabels doc),
          isVersionHeader l = false ∧ subHeaderType l = none := fun l hl =>
        ⟨(linkBlock_mem hl).1, subHeaderType_none_of_not_sub (linkBlock_mem hl).2.1⟩
      have hM : ∀ l ∈ (doc.dropWhile (fun l => !isLinkLine l)).takeWhile isLinkLine,
          isVersionHeader l = false ∧ subHeaderType l = none := by
        intro l hl
        have hll : isLinkLine l = true := List.mem_takeWhile_imp hl
        exact ⟨isVersionHeader_false_of_link hll,
          subHeaderType_none_of_not_sub (isSubHeader_false_of_link hll)⟩
      have hdoc : doc.takeWhile (fun l => !isLinkLine l) ++
          (((doc.dropWhile (fun l => !isLinkLine l)).takeWhile isLinkLine) ++
            ((doc.dropWhile (fun l => !isLinkLine l)).dropWhile isLinkLine)) = doc := by
        rw [List.takeWhile_append_dropWhile, List.takeWhile_append_dropWhile]
      rw [List.append_assoc]
      calc subTypesUnder label (doc.takeWhile (fun l => !isLinkLine l) ++
            (linkBlock slug (hasUnreleasedHeader doc) (releaseLabels doc) ++
              (doc.dropWhile (fun l => !isLinkLine l)).dropWhile isLinkLine))
          = subTypesUnder label (doc.takeWhile (fun l => !isLinkLine l) ++
              (doc.dropWhile (fun l => !isLinkLine l)).dropWhile isLinkLine) :=
            st_congr _ (tu_skip _ hnb) (st_skip _ hnb)
        _ = subTypesUnder label (doc.takeWhile (fun l => !isLinkLine l) ++
              (((doc.dropWhile (fun l => !isLinkLine l)).takeWhile isLinkLine) ++
                ((doc.dropWhile (fun l => !isLinkLine l)).dropWhile isLinkLine))) :=
            (st_congr _ (tu_skip _ hM) (st_skip _ hM)).symm
        _ = subTypesUnder label doc := by rw [hdoc]
    · have hX : ∀ l ∈ ("" :: linkBlock slug (hasUnreleasedHeader doc) (releaseLabels doc)),
          isVersionHeader l = false ∧ subHeaderType l = none := by
        intro l hl
        rcases List.mem_cons.mp hl with rfl | hl2
        · exact ⟨rfl, rfl⟩
        · exact ⟨(linkBlock_mem hl2).1, subHeaderType_none_of_not_sub (linkBlock_mem hl2).2.1⟩
      rw [List.append_assoc]
      have h2 : subTypesUnder label
          (doc ++ ([""] ++ linkBlock slug (hasUnreleasedHeader doc) (releaseLabels doc))) =
          subTypesUnder label (doc ++ ([] : List String)) :=
        st_congr doc (by rw [show ([""] ++ linkBlock slug (hasUnreleasedHeader doc)
            (releaseLabels doc) : List String) = "" :: linkBlock slug (hasUnreleasedHeader doc)
            (releaseLabels doc) from rfl, tu_nil hX]; rfl)
          (by rw [show ([""] ++ linkBlock slug (hasUnreleasedHeader doc)
            (releaseLabels doc) : List String) = "" :: linkBlock slug (hasUnreleasedHeader doc)
            (releaseLabels doc) from rfl, st_nil hX]; rfl)
      rw [h2, List.append_nil]

lemma applyCall_eq {today : String} {doc : List String} {c : Call} {t : ChangeType}
    (hpt : parseChangeType c.ty = some t)
    (hdate : ∀ d0, c.date = some d0 → dateOK d0 = true) :
    applyCall today doc c = addEntryCore t c.msg c.version c.date c.slug today doc := by
  obtain ⟨d, hae⟩ := @addEntry_isOk_of_good c.ty c.msg c.version c.date c.slug today doc
    (by rw [hpt]; rfl) hdate
  unfold applyCall
  rw [hae]
  obtain ⟨t2, hpt2, rfl, h3⟩ := addEntry_ok_cases hae
  obtain rfl : t2 = t := by
    rw [hpt] at hpt2
    exact (Option.some.inj hpt2).symm
  rfl

lemma core_subTypes_of_target {t : ChangeType} {msg : String}
    {version date slug : Option String} {today : String} {doc : List String}
    {label : String} {tg : Target}
    (hres : resolveTarget version date today doc = tg)
    (hm : matchesVersion label tg.hdr = true)
    (hpre : ∀ l ∈ tg.pre, matchesVersion label l = false)
    (hbody : ∀ l ∈ tg.body, isVersionHeader l = false)
    (hrest : typesUntilVH tg.rest = [])
    (hsubty : subTypesUnder label doc = typesOf tg.body) :
    subTypesUnder label (addEntryCore t msg version date slug today doc) =
      (if t ∈ subTypesUnder label doc then subTypesUnder label doc
       else insertT t (subTypesUnder label doc)) ∧
    (splitAtVersion label (addEntryCore t msg version date slug today doc)).isSome = true := by
  have hmut : mutate t msg version date today doc =
      tg.pre ++ tg.hdr :: (addToBody t msg tg.body ++ tg.rest) := by
    unfold mutate
    rw [hres]
  have hstm : subTypesUnder label (mutate t msg version date today doc) =
      typesOf (addToBody t msg tg.body) := by
    rw [hmut, subTypesUnder_of_parts hpre hm,
      typesUntilVH_append_noVH _ (addToBody_noVH hbody), hrest]
    simp
  have hfin : subTypesUnder label (addEntryCore t msg version date slug today doc) =
      typesOf (addToBody t msg tg.body) := by
    unfold addEntryCore
    split_ifs with hc
    · rw [subTypes_synthesize, hstm]
    · exact hstm
  have hmemH : tg.hdr ∈ addEntryCore t msg version date slug today doc := by
    have h1 : tg.hdr ∈ mutate t msg version date today doc := by
      rw [hmut]
      exact List.mem_append.mpr (Or.inr (by simp))
    unfold addEntryCore
    split_ifs with hc
    · exact synthesize_mem_of_not_link h1
        (isLinkLine_false_of_vh (isVersionHeader_of_matches hm))
    · exact h1
  refine ⟨?_, splitAtVersion_isSome_of_mem hmemH hm⟩
  rw [hfin, typesOf_addToBody, ← hsubty]

lemma subTypes_addEntryCore (t : ChangeType) (msg : String)
    (version date slug : Option String) (today : String) (doc : List String)
    {label : String} (hlab : version.getD "Unreleased" = label)
    (hstart : (splitAtVersion label doc).isSome = true ∨
      (splitAtVersion "Unreleased" doc).isSome = true ∨
      typesOf (doc.takeWhile (fun l => !isVersionHeader l)) = []) :
    subTypesUnder label (addEntryCore t msg version date slug today doc) =
      (if t ∈ subTypesUnder label doc then subTypesUnder label doc
       else insertT t (subTypesUnder label doc)) ∧
    (splitAtVersion label (addEntryCore t msg version date slug today doc)).isSome = true := by
  rcases hsp : splitAtVersion label doc with _ | trip
  · -- the target section is absent: it is created
    have hforall := splitAtVersion_none_forall hsp
    have hstd : subTypesUnder label doc = [] := subTypesUnder_nil_of_none hsp
    by_cases hlabU : label = "Unreleased"
    · -- creating the Unreleased section at the very top
      subst hlabU
      have hclean : typesOf (doc.takeWhile (fun l => !isVersionHeader l)) = [] := by
        rcases hstart with h1 | h1 | h1
        · rw [hsp] at h1
          exact Bool.noConfusion h1
        · rw [hsp] at h1
          exact Bool.noConfusion h1
        · exact h1
      by_cases hde : doc = []
      · subst hde
        have hres : resolveTarget version date today ([] : List String) =
            ⟨[], "## [Unreleased]", [], [], true⟩ := by
          unfold resolveTarget
          rw [hlab]
          simp only [hsp]
          rfl
        exact core_subTypes_of_target hres
          (show matchesVersion "Unreleased" "## [Unreleased]" = true from by decide)
          (fun l hl => absurd hl (List.not_mem_nil l))
          (fun l hl => absurd hl (List.not_mem_nil l)) rfl (by rw [hstd]; rfl)
      · have hres : resolveTarget version date today doc =
            ⟨[], "## [Unreleased]", "" :: doc.takeWhile (fun l => !isVersionHeader l),
              doc.dropWhile (fun l => !isVersionHeader l), true⟩ := by
          unfold resolveTarget
          rw [hlab]
          simp only [hsp]
          rw [if_pos trivial,
            if_neg (by rw [List.isEmpty_eq_false.mpr hde]; exact Bool.noConfusion)]
        refine core_subTypes_of_target hres
          (show matchesVersion "Unreleased" "## [Unreleased]" = true from by decide)
          (fun l hl => absurd hl (List.not_mem_nil l)) ?_
          (typesUntilVH_dropWhile doc) ?_
        · intro l hl
          rcases List.mem_cons.mp hl with rfl | hl2
          · rfl
          · simpa using List.mem_takeWhile_imp hl2
        · rw [hstd,
            show typesOf ("" :: doc.takeWhile (fun l => !isVersionHeader l)) =
              typesOf (doc.takeWhile (fun l => !isVersionHeader l)) from rfl, hclean]
    · -- creating a release section: the version argument is explicit
      rcases hv : version with _ | v
      · rw [hv] at hlab
        simp only [Option.getD_none] at hlab
        exact absurd hlab.symm hlabU
      · rw [hv] at hlab
        simp only [Option.getD_some] at hlab
        subst hlab
        rcases hsU : splitAtVersion "Unreleased" doc with _ | tripU
        · -- no Unreleased header either: create at the very top
          have hclean : typesOf (doc.takeWhile (fun l => !isVersionHeader l)) = [] := by
            rcases hstart with h1 | h1 | h1
            · rw [hsp] at h1
              exact Bool.noConfusion h1
            · rw [hsU] at h1
              exact Bool.noConfusion h1
            · exact h1
          have hres : resolveTarget (some v) date today doc =
              ⟨[], "## [" ++ v ++ "] - " ++ date.getD today,
                "" :: doc.takeWhile (fun l => !isVersionHeader l),
                doc.dropWhile (fun l => !isVersionHeader l), false⟩ := by
            unfold resolveTarget
            simp only [Option.getD_some, hsp]
            rw [if_neg hlabU]
            simp only [hsU]
          refine core_subTypes_of_target hres (matchesVersion_relHeader v _)
            (fun l hl => absurd hl (List.not_mem_nil l)) ?_
            (typesUntilVH_dropWhile doc) ?_
          · intro l hl
            rcases List.mem_cons.mp hl with rfl | hl2
            · rfl
            · simpa using List.mem_takeWhile_imp hl2
          · rw [hstd,
              show typesOf ("" :: doc.takeWhile (fun l => !isVersionHeader l)) =
                typesOf (doc.takeWhile (fun l => !isVersionHeader l)) from rfl, hclean]
        · -- insert the new release section directly below the Unreleased block
          obtain ⟨preU, hdrU, tailU⟩ := tripU
          obtain ⟨hdocU, hpreU, hmU⟩ := splitAtVersion_eq hsU
          have hres : resolveTarget (some v) date today doc =
              ⟨preU ++ hdrU :: padEnd (tailU.takeWhile (fun l => !isVersionHeader l)),
                "## [" ++ v ++ "] - " ++ date.getD today,
                [""], tailU.dropWhile (fun l => !isVersionHeader l), false⟩ := by
            unfold resolveTarget
            simp only [Option.getD_some, hsp]
            rw [if_neg hlabU]
            simp only [hsU]
          refine core_subTypes_of_target hres (matchesVersion_relHeader v _)
            ?_ ?_ (typesUntilVH_dropWhile tailU) ?_
          · intro l hl
            rcases List.mem_append.mp hl with h1 | h1
            · exact hforall l (by rw [hdocU]; simp [h1])
            · rcases List.mem_cons.mp h1 with rfl | h2
              · exact hforall l (by rw [hdocU]; simp)
              · rcases mem_padEnd h2 with rfl | h3
                · exact matchesVersion_false_of_not_vh rfl
                · refine hforall l (by
                    rw [hdocU]
                    have hmem2 : l ∈ tailU := (List.takeWhile_sublist _).subset h3
                    simp [hmem2])
          · intro l hl
            rcases List.mem_cons.mp hl with rfl | h2
            · rfl
            · simp at h2
          · rw [hstd]
            rfl
  · -- the target section already exists
    obtain ⟨pre, hdr, tail⟩ := trip
    obtain ⟨hdoc2, hpre2, hm2⟩ := splitAtVersion_eq hsp
    have hres : resolveTarget version date today doc =
        ⟨pre, hdr, tail.takeWhile (fun l => !isVersionHeader l),
          tail.dropWhile (fun l => !isVersionHeader l), false⟩ := by
      unfold resolveTarget
      rw [hlab]
      simp only [hsp]
    exact core_subTypes_of_target hres hm2 hpre2
      (fun l hl => by simpa using List.mem_takeWhile_imp hl)
      (typesUntilVH_dropWhile tail) (subTypes_split hsp)

/-- C3: for every sequence of `addEntry` calls targeting one version
section — any one `label`, whether the `Unreleased` bucket or a release
version, whether the section already exists or is created by the first
call — with recognised change types and well-formed explicit dates, the
final order of the change-type subsection headers present under that
version equals the fixed priority sequence `{Added, Changed, Deprecated,
Removed, Fixed, Security}` restricted to the subset present, independent
of the creation order; the subset present is exactly the initially
present types together with the calls' types.  The starting document
either has the target section, or has an `Unreleased` section (new
release sections are created directly below it), or carries no stray
subsection headers before its first version header; its target section's
present subsections start in priority order (vacuously so when the
section is absent or empty). -/
theorem subsection_order_invariant (today label : String) : ∀ (calls : List Call)
    (doc : List String),
    (∀ c ∈ calls, c.version.getD "Unreleased" = label ∧
      (parseChangeType c.ty).isSome = true ∧
      ∀ d0, c.date = some d0 → dateOK d0 = true) →
    ((splitAtVersion label doc).isSome = true ∨
      (splitAtVersion "Unreleased" doc).isSome = true ∨
      typesOf (doc.takeWhile (fun l => !isVersionHeader l)) = []) →
    (subTypesUnder label doc).Pairwise (fun a b => a.priority < b.priority) →
    subTypesUnder label (applyCalls today calls doc) =
      ChangeType.all.filter
        (fun u => u ∈ subTypesUnder label (applyCalls today calls doc)) ∧
    (∀ u, u ∈ subTypesUnder label (applyCalls today calls doc) ↔
      u ∈ subTypesUnder label doc ∨ ∃ c ∈ calls, parseChangeType c.ty = some u) := by
  intro calls
  induction calls with
  | nil =>
    intro doc _ _ hsorted
    refine ⟨sorted_canonical hsorted, ?_⟩
    intro u
    show u ∈ subTypesUnder label doc ↔ _
    simp
  | cons c cs ih =>
    intro doc hgood hstart hsorted
    obtain ⟨hlab, hptS, hdate⟩ := hgood c (by simp)
    obtain ⟨t, hpt⟩ := Option.isSome_iff_exists.mp hptS
    have h1eq : applyCall today doc c =
        addEntryCore t c.msg c.version c.date c.slug today doc :=
      applyCall_eq hpt hdate
    obtain ⟨hst, hsome⟩ :=
      subTypes_addEntryCore t c.msg c.version c.date c.slug today doc hlab hstart
    rw [← h1eq] at hst hsome
    have happ : applyCalls today (c :: cs) doc =
        applyCalls today cs (applyCall today doc c) := rfl
    have hsorted1 : (subTypesUnder label (applyCall today doc c)).Pairwise
        (fun a b => a.priority < b.priority) := by
      rw [hst]
      split_ifs with hmt
      · exact hsorted
      · exact pairwise_insertT hsorted hmt
    obtain ⟨hcan, hmem⟩ := ih (applyCall today doc c)
      (fun c2 hc2 => hgood c2 (List.mem_cons_of_mem _ hc2)) (Or.inl hsome) hsorted1
    rw [happ]
    refine ⟨hcan, ?_⟩
    have hmem1 : ∀ u, u ∈ subTypesUnder label (applyCall today doc c) ↔
        u = t ∨ u ∈ subTypesUnder label doc := by
      intro u
      rw [hst]
      split_ifs with hmt
      · constructor
        · exact fun h => Or.inr h
        · rintro (rfl | h)
          · exact hmt
          · exact h
      · exact mem_insertT t u _
    intro u
    rw [hmem u, hmem1 u]
    constructor
    · rintro ((rfl | h) | ⟨c2, hc2, hpc2⟩)
      · exact Or.inr ⟨c, by simp, hpt⟩
      · exact Or.inl h
      · exact Or.inr ⟨c2, List.mem_cons_of_mem _ hc2, hpc2⟩
    · rintro (h | ⟨c2, hc2, hpc2⟩)
      · exact Or.inl (Or.inr h)
      · rcases List.mem_cons.mp hc2 with rfl | hc3
        · refine Or.inl (Or.inl ?_)
          rw [hpt] at hpc2
          exact (Option.some.inj hpc2).symm
        · exact Or.inr ⟨c2, hc3, hpc2⟩

/-- Witness for `subsection_order_invariant`: under the release section
`1.0.0` — created by the first call, below the existing `Unreleased`
header — creating Security, then Added, then Fixed ends with the
subsection headers in the fixed priority order Added, Fixed, Security. -/
theorem subsection_order_invariant_witness :
    ((splitAtVersion "1.0.0" ["## [Unreleased]"]).isSome = true ∨
      (splitAtVersion "Unreleased" ["## [Unreleased]"]).isSome = true ∨
      typesOf (["## [Unreleased]"].takeWhile (fun l => !isVersionHeader l)) = []) ∧
    (subTypesUnder "1.0.0" ["## [Unreleased]"]).Pairwise
      (fun a b => a.priority < b.priority) ∧
    subTypesUnder "1.0.0" (applyCalls "2026-02-10"
        [⟨"Security", "s", some "1.0.0", none, some "acme/widget"⟩,
         ⟨"Added", "a", some "1.0.0", none, none⟩,
         ⟨"Fixed", "f", some "1.0.0", none, none⟩] ["## [Unreleased]"]) =
      ChangeType.all.filter
        (fun u => u ∈ subTypesUnder "1.0.0" (applyCalls "2026-02-10"
          [⟨"Security", "s", some "1.0.0", none, some "acme/widget"⟩,
           ⟨"Added", "a", some "1.0.0", none, none⟩,
           ⟨"Fixed", "f", some "1.0.0", none, none⟩] ["## [Unreleased]"])) ∧
    subTypesUnder "1.0.0" (applyCalls "2026-02-10"
        [⟨"Security", "s", some "1.0.0", none, some "acme/widget"⟩,
         ⟨"Added", "a", some "1.0.0", none, none⟩,
         ⟨"Fixed", "f", some "1.0.0", none, none⟩] ["## [Unreleased]"]) =
      [.added, .fixed, .security] := by
  refine ⟨Or.inr (Or.inl (by decide)), List.Pairwise.nil, ?_, by decide⟩
  refine (subsection_order_invariant "2026-02-10" "1.0.0"
    [⟨"Security", "s", some "1.0.0", none, some "acme/widget"⟩,
     ⟨"Added", "a", some "1.0.0", none, none⟩,
     ⟨"Fixed", "f", some "1.0.0", none, none⟩] ["## [Unreleased]"] ?_
    (Or.inr (Or.inl (by decide))) List.Pairwise.nil).1
  intro c hc
  rcases List.mem_cons.mp hc with rfl | hc2
  · exact ⟨rfl, by decide, fun d0 hd0 => Option.noConfusion hd0⟩
  rcases List.mem_cons.mp hc2 with rfl | hc3
  · exact ⟨rfl, by decide, fun d0 hd0 => Option.noConfusion hd0⟩
  rcases List.mem_cons.mp hc3 with rfl | hc4
  · exact ⟨rfl, by decide, fun d0 hd0 => Option.noConfusion hd0⟩
  · cases hc4

/-- Witness for `link_synthesis_exact` at a concrete document. -/
theorem link_synthesis_exact_witness :
    versionLabels ["## [Unreleased]", "## [2.0.0] - 2026-01-05", "## [1.5.0] - 2025-06-01"] =
      ["Unreleased", "2.0.0", "1.5.0"] ∧
    linkBlock "acme/widget"
        (hasUnreleasedHeader
          ["## [Unreleased]", "## [2.0.0] - 2026-01-05", "## [1.5.0] - 2025-06-01"])
        (releaseLabels
          ["## [Unreleased]", "## [2.0.0] - 2026-01-05", "## [1.5.0] - 2025-06-01"]) =
      ["[Unreleased]: https://github.com/acme/widget/compare/v2.0.0...HEAD",
       "[2.0.0]: https://github.com/acme/widget/compare/v1.5.0...v2.0.0",
       "[1.5.0]: https://github.com/acme/widget/releases/tag/v1.5.0"] :=
  ⟨by decide,
    link_synthesis_exact
      ["## [Unreleased]", "## [2.0.0] - 2026-01-05", "## [1.5.0] - 2025-06-01"] (by decide)⟩

end CL
